import Mathlib

/-!
# Verification of `regparser.tree.struct`

A shallow embedding of the tree core of the regulations parser
(`src/regparser/tree/struct.py`) together with proofs settling the frozen
claims about it.

Conventions of the embedding:
* Python lists become Lean `List`s; Python's in-place mutation
  (`lhs.children.extend(...)`, `root.children = ...`) becomes functional
  update of the corresponding list entry.
* Fallible Python operations (`root.label[-1]` on an empty label, bounded
  recursion) are modelled in the `Except` monad.
* `Node.source_xml` is explicitly excluded from identity, comparison and
  serialization by the source, and no claim mentions it, so the `Node`
  model omits it.
-/

/-- The mutable `Node` class: `text`, `children`, `label`, optional
`title`, `node_type` (a string constant in the source).  `title` is
`Option String` because `Node.__init__` normalises a missing/empty title
to Python `None`. -/
inductive Node where
  | mk (text : String) (children : List Node) (label : List String)
       (title : Option String) (node_type : String)
deriving Repr

def Node.text : Node → String
  | .mk t _ _ _ _ => t

def Node.children : Node → List Node
  | .mk _ cs _ _ _ => cs

def Node.label : Node → List String
  | .mk _ _ l _ _ => l

def Node.title : Node → Option String
  | .mk _ _ _ ti _ => ti

def Node.node_type : Node → String
  | .mk _ _ _ _ nt => nt

/-- Functional counterpart of the Python assignment `node.children = cs`. -/
def Node.withChildren (n : Node) (cs : List Node) : Node :=
  .mk n.text cs n.label n.title n.node_type

@[simp] theorem Node.text_mk (t : String) (cs : List Node) (l : List String)
    (ti : Option String) (nt : String) : (Node.mk t cs l ti nt).text = t := rfl

@[simp] theorem Node.children_mk (t : String) (cs : List Node) (l : List String)
    (ti : Option String) (nt : String) : (Node.mk t cs l ti nt).children = cs := rfl

@[simp] theorem Node.label_mk (t : String) (cs : List Node) (l : List String)
    (ti : Option String) (nt : String) : (Node.mk t cs l ti nt).label = l := rfl

@[simp] theorem Node.title_mk (t : String) (cs : List Node) (l : List String)
    (ti : Option String) (nt : String) : (Node.mk t cs l ti nt).title = ti := rfl

@[simp] theorem Node.node_type_mk (t : String) (cs : List Node) (l : List String)
    (ti : Option String) (nt : String) : (Node.mk t cs l ti nt).node_type = nt := rfl

@[simp] theorem Node.withChildren_label (n : Node) (cs : List Node) :
    (n.withChildren cs).label = n.label := rfl

@[simp] theorem Node.withChildren_children (n : Node) (cs : List Node) :
    (n.withChildren cs).children = cs := rfl

@[simp] theorem Node.withChildren_text (n : Node) (cs : List Node) :
    (n.withChildren cs).text = n.text := rfl

@[simp] theorem Node.withChildren_title (n : Node) (cs : List Node) :
    (n.withChildren cs).title = n.title := rfl

@[simp] theorem Node.withChildren_node_type (n : Node) (cs : List Node) :
    (n.withChildren cs).node_type = n.node_type := rfl

theorem Node.withChildren_self (n : Node) : n.withChildren n.children = n := by
  cases n; rfl

/-! ## `Node.__init__` and label construction (claim C7)

`Node.__init__` receives the `label` argument as an arbitrary Python
sequence; its entries may be strings or other objects (integers in
practice).  The constructor runs `[str(l) for l in label if l != '']`:
it drops entries equal to the empty string and coerces everything else
with `str`.  `PyVal` models the dynamically typed entries. -/

/-- A dynamically typed label entry as passed to `Node.__init__`:
either a string or an integer (the two kinds the parser produces). -/
inductive PyVal where
  | str (s : String)
  | int (n : Int)
deriving Repr, DecidableEq

/-- Python `str(v)` on a label entry. -/
def pyValStr : PyVal → String
  | .str s => s
  | .int n => toString n

/-- Python `v != ''` on a label entry (an integer is never equal to `''`). -/
def pyValNeEmpty : PyVal → Bool
  | .str s => decide (s ≠ "")
  | .int _ => true

/-- The label computation of `Node.__init__`:
`self.label = [str(l) for l in label if l != '']`. -/
def labelInit (label : List PyVal) : List String :=
  (label.filter pyValNeEmpty).map pyValStr

/-- `Node.__init__` itself: `text` is kept (it is already a string once
`unicode` is applied), `children` is defensively copied (identity on
values), `label` goes through `labelInit`, and
`title = unicode(title or '') ; self.title = title or None` turns a
missing or empty title into `None`. -/
def nodeInit (text : String) (children : List Node) (label : List PyVal)
    (title : Option String) (node_type : String) : Node :=
  .mk text children (labelInit label)
    (match title with
     | none => none
     | some s => if s = "" then none else some s)
    node_type

/-! ## `merge_duplicates` -/

/-- The labels of a node list, as scanned by `merge_duplicates`. -/
def nodeLabels (nodes : List Node) : List (List String) :=
  nodes.map Node.label

/-- `lhs.label == rhs.label` for the index pair `p`, read off the list. -/
def labelsMatch (nodes : List Node) (p : Nat × Nat) : Bool :=
  (nodeLabels nodes)[p.1]? == (nodeLabels nodes)[p.2]?

/-- All scan pairs `(i, j)` with a fixed `i`: the inner loop
`for ridx, rhs in enumerate(nodes[lidx + 1:], lidx + 1)`. -/
def pairsFrom (i n : Nat) : List (Nat × Nat) :=
  ((List.range n).filter (fun j => decide (i < j))).map (fun j => (i, j))

/-- Auxiliary enumeration for `pairList`: the blocks for the outer
indices `n - k, ..., n - 1`, in ascending order of the outer index. -/
def pairListAux : Nat → Nat → List (Nat × Nat)
  | 0, _ => []
  | k + 1, n => pairsFrom (n - (k + 1)) n ++ pairListAux k n

/-- All index pairs `(i < j)` with `j < n`, starting at outer index `i`,
in the scan order of `merge_duplicates`: outer index ascending, inner
index ascending. -/
def pairList (i n : Nat) : List (Nat × Nat) :=
  pairListAux (n - i) n

/-- The double loop of `merge_duplicates`: scan all pairs in order,
remembering the pair of equal-labelled nodes seen last (`found_pair`). -/
def lastDupPair (nodes : List Node) : Option (Nat × Nat) :=
  (pairList 0 nodes.length).foldl
    (fun acc p => if labelsMatch nodes p then some p else acc) none

/-- One merge action: `lhs.children.extend(rhs.children)` followed by
dropping `nodes[ridx]` (`nodes[:ridx] + nodes[ridx+1:]`). -/
def mergeStep (nodes : List Node) (li ri : Nat) : List Node :=
  match nodes[li]?, nodes[ri]? with
  | some lhs, some rhs =>
      ((nodes.set li (lhs.withChildren (lhs.children ++ rhs.children))).eraseIdx ri)
  | _, _ => nodes

/-- A fold that overwrites an optional accumulator at every hit keeps the
last hit: it equals `find?` on the reversed list (with the initial value
as fallback). -/
theorem foldl_overwrite {α : Type} (cond : α → Bool) (l : List α) (init : Option α) :
    l.foldl (fun acc p => if cond p then some p else acc) init =
      match l.reverse.find? cond with
      | some p => some p
      | none => init := by
  induction l using List.reverseRecOn generalizing init with
  | nil => simp
  | append_singleton xs x ih =>
      rw [List.foldl_append]
      simp only [List.foldl_cons, List.foldl_nil, List.reverse_append,
        List.reverse_singleton, List.singleton_append, List.find?_cons]
      by_cases hx : cond x
      · simp [hx]
      · simp only [hx, Bool.false_eq_true, if_false]
        exact ih init

theorem mem_pairsFrom {p : Nat × Nat} {i n : Nat} :
    p ∈ pairsFrom i n ↔ p.1 = i ∧ i < p.2 ∧ p.2 < n := by
  cases p with
  | mk a b =>
      simp only [pairsFrom, List.mem_map, List.mem_filter, List.mem_range,
        decide_eq_true_eq, Prod.mk.injEq]
      constructor
      · rintro ⟨j, ⟨hjn, hij⟩, rfl, rfl⟩
        exact ⟨rfl, hij, hjn⟩
      · rintro ⟨rfl, hib, hbn⟩
        exact ⟨b, ⟨hbn, hib⟩, rfl, rfl⟩

theorem mem_pairListAux {p : Nat × Nat} : ∀ {k n : Nat}, k ≤ n →
    (p ∈ pairListAux k n ↔ n - k ≤ p.1 ∧ p.1 < p.2 ∧ p.2 < n) := by
  intro k
  induction k with
  | zero =>
      intro n _
      simp only [pairListAux, List.not_mem_nil, false_iff]
      omega
  | succ k ih =>
      intro n hk
      rw [pairListAux, List.mem_append, mem_pairsFrom,
        ih (Nat.le_of_succ_le hk)]
      omega

theorem mem_pairList {p : Nat × Nat} {i n : Nat} :
    p ∈ pairList i n ↔ i ≤ p.1 ∧ p.1 < p.2 ∧ p.2 < n := by
  rw [pairList]
  by_cases hin : i ≤ n
  · rw [mem_pairListAux (Nat.sub_le n i)]
    omega
  · have : n - i = 0 := by omega
    rw [this]
    simp only [pairListAux, List.not_mem_nil, false_iff]
    omega

/-- `found_pair` as the last matching pair of the scan. -/
theorem lastDupPair_eq_find (nodes : List Node) :
    lastDupPair nodes =
      (pairList 0 nodes.length).reverse.find? (labelsMatch nodes) := by
  rw [lastDupPair, foldl_overwrite]
  cases (pairList 0 nodes.length).reverse.find? (labelsMatch nodes) <;> rfl

theorem lastDupPair_bounds {nodes : List Node} {li ri : Nat}
    (h : lastDupPair nodes = some (li, ri)) :
    li < ri ∧ ri < nodes.length ∧ labelsMatch nodes (li, ri) = true := by
  rw [lastDupPair_eq_find] at h
  have hmem : (li, ri) ∈ (pairList 0 nodes.length).reverse :=
    List.mem_of_find?_eq_some h
  have hcond := List.find?_some h
  rw [List.mem_reverse] at hmem
  have := mem_pairList.mp hmem
  exact ⟨this.2.1, this.2.2, hcond⟩

theorem mergeStep_length {nodes : List Node} {li ri : Nat}
    (hlr : li < ri) (hr : ri < nodes.length) :
    (mergeStep nodes li ri).length + 1 = nodes.length := by
  have hl : li < nodes.length := Nat.lt_trans hlr hr
  obtain ⟨lhs, hlhs⟩ : ∃ x, nodes[li]? = some x :=
    ⟨nodes[li], List.getElem?_eq_getElem hl⟩
  obtain ⟨rhs, hrhs⟩ : ∃ x, nodes[ri]? = some x :=
    ⟨nodes[ri], List.getElem?_eq_getElem hr⟩
  rw [mergeStep, hlhs, hrhs]
  rw [List.length_eraseIdx]
  simp only [List.length_set]
  rw [if_pos hr]
  omega

/-- `merge_duplicates`: repeatedly act on the last-found duplicate pair
until no two labels coincide. -/
def merge_duplicates (nodes : List Node) : List Node :=
  match h : lastDupPair nodes with
  | none => nodes
  | some (li, ri) => merge_duplicates (mergeStep nodes li ri)
termination_by nodes.length
decreasing_by
  have := lastDupPair_bounds h
  have := mergeStep_length this.1 this.2.1
  omega

/-! ## `treeify` -/

/-- The `is_child` test of `treeify`.  When the root label's last segment
is the sentinel `Interp`, a candidate matches iff its label's prefix of
length `len(root.label) - 1` equals `root.label[:-1]`; otherwise the root
label must be an exact prefix of the candidate's label. -/
def is_child (rootLabel nLabel : List String) : Bool :=
  if rootLabel.getLast? = some "Interp" then
    decide (nLabel.take (rootLabel.length - 1) = rootLabel.dropLast)
  else
    decide (nLabel.take rootLabel.length = rootLabel)

/-- `children = [n for n in nodes if n.label != root.label and is_child(n)]`. -/
def selectedDescendants (rootLabel : List String) (nodes : List Node) : List Node :=
  nodes.filter fun n => decide (n.label ≠ rootLabel) && is_child rootLabel n.label

/-- The single pass of `treeify` that tracks the running minimum label
length and the nodes achieving it (resetting on a strictly smaller
length). -/
def withMinAux : Nat → List Node → List Node → List Node
  | _, acc, [] => acc
  | m, acc, n :: rest =>
    if n.label.length = m then withMinAux m (acc ++ [n]) rest
    else if n.label.length < m then withMinAux n.label.length [n] rest
    else withMinAux m acc rest

/-- `min_len, with_min = len(nodes[0].label), []` followed by the pass
over all of `nodes`. -/
def withMin (nodes : List Node) : List Node :=
  match nodes with
  | [] => []
  | n :: _ => withMinAux n.label.length [] nodes

mutual

/-- `treeify`, in the `Except` monad (`root.label[-1]` on an empty label
raises `IndexError`) and with an explicit recursion budget; the budget is
spent once per recursion level and `treeify` supplies enough of it that
the bound is never hit (see `treeifyFuel_ok`). -/
def treeifyFuel : Nat → List Node → Except String (List Node)
  | 0, _ => .error "recursion bound exceeded"
  | _ + 1, [] => .ok []
  | f + 1, n :: rest =>
      treeifyRootsFuel f (n :: rest) (merge_duplicates (withMin (n :: rest)))
termination_by f nodes => (f, 0, 0)

/-- The loop `for root in with_min: ... roots.append(root)` of `treeify`:
for each candidate root, filter its descendants out of the full node list,
treeify them recursively and append them to the root's existing
children. -/
def treeifyRootsFuel : Nat → List Node → List Node → Except String (List Node)
  | _, _, [] => .ok []
  | f, nodes, r :: rs =>
      match r.label.getLast? with
      | none => .error "IndexError: list index out of range"
      | some _ =>
          match treeifyFuel f (selectedDescendants r.label nodes) with
          | .error e => .error e
          | .ok sub =>
              match treeifyRootsFuel f nodes rs with
              | .error e => .error e
              | .ok rest2 => .ok (r.withChildren (r.children ++ sub) :: rest2)
termination_by f nodes roots => (f, 1, roots.length)

end

/-- `treeify` itself: one fuel unit per recursion level is enough because
every recursive call strictly shrinks the node list. -/
def treeify (nodes : List Node) : Except String (List Node) :=
  treeifyFuel (nodes.length + 1) nodes

/-! ## `FrozenNode`

`FrozenNode.__cmp__` and `__hash__` both go through `__repr__`, which
renders `text`, `children`, `label` and `title` (but not `node_type` or
`tagged_text`).  The repr is modelled as a character list.  Python 2
prints unicode strings with a `u` prefix; that constant prefix is omitted
here, which affects neither equality nor hashing structure.  Python's
string repr also hex-escapes unprintable characters and switches the
quote character when the string contains a single quote; the model
escapes the backslash and the quote uniformly, which preserves exactly
the property the comparison relies on: distinct strings have distinct
reprs, and the repr of a string never exposes a bare quote. -/

/-- Immutable snapshot node, with the same logical fields as `Node` plus
`tagged_text` and no markup back-reference. -/
inductive FrozenNode where
  | mk (text : String) (children : List FrozenNode) (label : List String)
       (title : String) (node_type : String) (tagged_text : String)
deriving Repr

def FrozenNode.text : FrozenNode → String
  | .mk t _ _ _ _ _ => t

def FrozenNode.children : FrozenNode → List FrozenNode
  | .mk _ cs _ _ _ _ => cs

def FrozenNode.label : FrozenNode → List String
  | .mk _ _ l _ _ _ => l

def FrozenNode.title : FrozenNode → String
  | .mk _ _ _ ti _ _ => ti

def FrozenNode.node_type : FrozenNode → String
  | .mk _ _ _ _ nt _ => nt

def FrozenNode.tagged_text : FrozenNode → String
  | .mk _ _ _ _ _ tt => tt

/-- The quote character of a Python string repr. -/
def quoteChar : Char := Char.ofNat 39

/-- The backslash escape character. -/
def backslashChar : Char := Char.ofNat 92

/-- Escape one character for a string repr. -/
def pyEscChar (c : Char) : List Char :=
  if c = backslashChar then [backslashChar, backslashChar]
  else if c = quoteChar then [backslashChar, quoteChar]
  else [c]

/-- Escape a character sequence for a string repr. -/
def pyEsc : List Char → List Char
  | [] => []
  | c :: cs => pyEscChar c ++ pyEsc cs

/-- `repr` of a Python string: the escaped body between quotes. -/
def pyStrRepr (s : String) : List Char :=
  quoteChar :: (pyEsc s.toList ++ [quoteChar])

/-- The tail `", x2, x3, ..."` of a Python tuple repr. -/
def tupSep : List (List Char) → List Char
  | [] => []
  | x :: xs => ", ".toList ++ x ++ tupSep xs

/-- `repr` of a Python tuple given the reprs of its elements: `()` when
empty, `(x,)` for one element, `(x1, x2, ...)` otherwise. -/
def tupRepr (l : List (List Char)) : List Char :=
  match l with
  | [] => "()".toList
  | [x] => "(".toList ++ x ++ ",)".toList
  | x :: xs => "(".toList ++ x ++ tupSep xs ++ ")".toList

mutual

/-- `FrozenNode.__repr__`:
`"FrozenNode(text=%s, children=%s, label=%s, title=%s)" % (repr(text),
repr(children), repr(label), repr(title))`. -/
def frozenRepr : FrozenNode → List Char
  | .mk t cs l ti _ _ =>
      "FrozenNode(text=".toList ++ pyStrRepr t
        ++ ", children=".toList ++ tupRepr (frozenReprList cs)
        ++ ", label=".toList ++ tupRepr (l.map pyStrRepr)
        ++ ", title=".toList ++ pyStrRepr ti ++ ")".toList

/-- The reprs of the members of a children tuple. -/
def frozenReprList : List FrozenNode → List (List Char)
  | [] => []
  | c :: cs => frozenRepr c :: frozenReprList cs

end

/-- `FrozenNode.__cmp__ == 0` between two frozen nodes: their reprs
coincide. -/
def frozenEq (a b : FrozenNode) : Bool :=
  decide (frozenRepr a = frozenRepr b)

/-- `FrozenNode.__hash__` is `hash(repr(self))`; Python's string hash is
a fixed function of the repr, so the embedding retains the repr itself as
the hash value. -/
def frozenHash (a : FrozenNode) : List Char :=
  frozenRepr a

mutual

/-- `FrozenNode.from_node`: deep conversion; `title` and `tagged_text`
fall back to the empty string (the `Node` model carries no
`tagged_text`, so `getattr(node, 'tagged_text', '') or ''` is `''`). -/
def from_node : Node → FrozenNode
  | .mk t cs l ti nt =>
      .mk t (from_node_list cs) l (ti.getD "") nt ""

/-- `map(FrozenNode.from_node, node.children)`. -/
def from_node_list : List Node → List FrozenNode
  | [] => []
  | c :: cs => from_node c :: from_node_list cs

end

mutual

/-- Field coincidence of two mutable nodes on everything
`FrozenNode.from_node` carries into the repr: `text`, `label`, `title`
and, recursively, `children` — but not `node_type`. -/
def nodeEqvNoType : Node → Node → Bool
  | .mk t1 cs1 l1 ti1 _, .mk t2 cs2 l2 ti2 _ =>
      t1 == t2 && decide (l1 = l2) && ti1 == ti2 && nodeEqvNoTypeList cs1 cs2

/-- Pointwise `nodeEqvNoType` on children lists. -/
def nodeEqvNoTypeList : List Node → List Node → Bool
  | [], [] => true
  | a :: as_, b :: bs => nodeEqvNoType a b && nodeEqvNoTypeList as_ bs
  | _, _ => false

end

mutual

/-- The invariant `Node.__init__` establishes and the parser preserves:
the title is never the empty string (it is normalised to `None`), and
label segments are never empty (they are filtered out); recursively for
all children. -/
def nodeNormalized : Node → Bool
  | .mk _ cs l ti _ =>
      decide (ti ≠ some "") && l.all (fun s => decide (s ≠ ""))
        && nodeNormalizedList cs

/-- `nodeNormalized` for every member of a list. -/
def nodeNormalizedList : List Node → Bool
  | [] => true
  | c :: cs => nodeNormalized c && nodeNormalizedList cs

end

/-! ## Flattening and well-grouped trees (claim C2) -/

mutual

/-- Pre-order flattening of a tree into the flat fragment list `treeify`
consumes: every node appears, stripped of its children. -/
def flatten : Node → List Node
  | .mk t cs l ti nt => .mk t [] l ti nt :: flattenList cs

/-- Concatenated pre-order flattening of a forest. -/
def flattenList : List Node → List Node
  | [] => []
  | c :: cs => flatten c ++ flattenList cs

end

/-- `node.children = []`, the shape of every entry of `flatten`. -/
def stripNode (n : Node) : Node :=
  n.withChildren []

mutual

/-- A tree whose children are grouped consistently with their label
prefixes, so that `treeify` can reconstruct it from its flattening:
* the label is non-empty;
* all children carry labels of one common length, strictly longer than
  the node's own label;
* every node of the subtree passes the node's own `is_child` test;
* no node in one child's subtree passes a different child's `is_child`
  test (the interpretive-overlay test makes this a real restriction);
* labels are pairwise distinct across the subtree;
* recursively, every child is well grouped. -/
def wellGrouped : Node → Bool
  | .mk t cs l ti nt =>
      decide (l ≠ []) &&
      (match cs with
       | [] => true
       | c :: _ => decide (l.length < c.label.length) &&
           cs.all (fun c2 => decide (c2.label.length = c.label.length))) &&
      ((flatten (.mk t cs l ti nt)).all fun d => is_child l d.label) &&
      (cs.all fun ci => cs.all fun cj =>
        decide (ci.label = cj.label) ||
          (flatten cj).all fun d => !(is_child ci.label d.label)) &&
      decide (((flatten (.mk t cs l ti nt)).map Node.label).Nodup) &&
      wellGroupedList cs

/-- `wellGrouped` for every member of a forest. -/
def wellGroupedList : List Node → Bool
  | [] => true
  | c :: cs => wellGrouped c && wellGroupedList cs

end

/-! ## JSON serialization (claim C8)

`NodeEncoder` turns a `Node` into a JSON object; `node_decode_hook` is
applied bottom-up by `json.loads` to every decoded object and rebuilds a
`Node` whenever the four mandatory keys are present.  `JVal` is a plain
JSON value; `DVal` is a value of the partially decoded document, in which
objects already replaced by the hook are `Node`s. -/

/-- A JSON value (no numbers or booleans occur in the canonical Node
shape). -/
inductive JVal where
  | str (s : String)
  | arr (xs : List JVal)
  | obj (fields : List (String × JVal))

/-- A decoded-document value: like `JVal`, but an object may have been
replaced by a reconstructed `Node`. -/
inductive DVal where
  | str (s : String)
  | arr (xs : List DVal)
  | obj (fields : List (String × DVal))
  | node (n : Node)

mutual

/-- `NodeEncoder.default` composed with the JSON encoding of the field
dict: keys `text`, `children`, `label`, `node_type` always; `title` only
when it is not `None` (`del fields['title']`); `tagged_text`,
`source_xml` and `child_labels` are deleted and the `Node` model does not
carry them. -/
def encodeNode : Node → JVal
  | .mk t cs l ti nt =>
      .obj ([("text", .str t),
             ("children", .arr (encodeNodeList cs)),
             ("label", .arr (l.map JVal.str)),
             ("node_type", .str nt)] ++
            (match ti with
             | none => []
             | some s => [("title", JVal.str s)]))

/-- Encoding of a children list. -/
def encodeNodeList : List Node → List JVal
  | [] => []
  | c :: cs => encodeNode c :: encodeNodeList cs

end

/-- `d[k]` / `d.get(k)` on a decoded object. -/
def lookupField (fields : List (String × DVal)) (k : String) : Option DVal :=
  (fields.find? (fun kv => kv.1 == k)).map (fun kv => kv.2)

/-- `set(('text', 'children', 'label', 'node_type')) - set(d.keys()) == set()`. -/
def hasNodeKeys (fields : List (String × DVal)) : Bool :=
  (lookupField fields "text").isSome && (lookupField fields "children").isSome
    && (lookupField fields "label").isSome
    && (lookupField fields "node_type").isSome

/-- `unicode(v)` / `str(v)` on a decoded value, for the string-valued
positions of the canonical shape (non-string values never occur there;
the fallback result is irrelevant to every claim). -/
def dvalStr : DVal → String
  | .str s => s
  | _ => ""

/-- `list(v)` on a decoded value (the canonical shape always has an
array here). -/
def dvalList : DVal → List DVal
  | .arr xs => xs
  | _ => []

/-- A decoded child as a member of `Node.children`.  In the canonical
shape every child has already been replaced by the hook, so it is a
`node`; the fallback (Python would keep the raw value in the
heterogeneous list) is irrelevant to every claim. -/
def dvalToNode : DVal → Node
  | .node n => n
  | v => .mk (dvalStr v) [] [] none "regtext"

/-- The label filter-and-coerce of `Node.__init__`, applied to the
decoded label array: `[str(l) for l in label if l != '']`. -/
def dvalLabel (xs : List DVal) : List String :=
  (xs.filter (fun v => match v with
    | .str s => decide (s ≠ "")
    | _ => true)).map dvalStr

/-- The title normalisation of `Node.__init__` applied to
`d.get('title', None)`: a missing or empty title becomes `None`. -/
def dvalTitle : Option DVal → Option String
  | none => none
  | some (.str s) => if s = "" then none else some s
  | some _ => none

/-- `node_decode_hook` on one decoded object: rebuild a `Node` when the
four mandatory keys are present, otherwise return the object unchanged. -/
def node_decode_hook (fields : List (String × DVal)) : DVal :=
  if hasNodeKeys fields then
    .node (.mk
      (dvalStr ((lookupField fields "text").getD (.str "")))
      ((dvalList ((lookupField fields "children").getD (.arr []))).map dvalToNode)
      (dvalLabel (dvalList ((lookupField fields "label").getD (.arr []))))
      (dvalTitle (lookupField fields "title"))
      (dvalStr ((lookupField fields "node_type").getD (.str ""))))
  else .obj fields

mutual

/-- `json.loads` with `object_hook=node_decode_hook`: the hook is applied
to every object, innermost first. -/
def decodeJVal : JVal → DVal
  | .str s => .str s
  | .arr xs => .arr (decodeJList xs)
  | .obj fs => node_decode_hook (decodeJFields fs)

/-- Decoding of an array. -/
def decodeJList : List JVal → List DVal
  | [] => []
  | x :: xs => decodeJVal x :: decodeJList xs

/-- Decoding of an object's field list. -/
def decodeJFields : List (String × JVal) → List (String × DVal)
  | [] => []
  | kv :: fs => (kv.1, decodeJVal kv.2) :: decodeJFields fs

end

/-- The key set of an encoded object. -/
def jObjKeys : JVal → List String
  | .obj fs => fs.map (fun kv => kv.1)
  | _ => []

/-! ## Claim C7: label construction never fails, it coerces -/

/-- C7 (counterexample): constructing a `Node` with a non-string label
segment does not fail with an `InvalidLabel` condition: `Node.__init__`
is total and silently coerces the integer `4` to the string `"4"`. -/
theorem claim_C7_counterexample :
    (nodeInit "" [] [PyVal.int 4] none "regtext").label = ["4"] := by
  rfl

/-- C7 (amended): `Node.__init__` never raises on malformed label input;
each non-string segment is silently coerced with `str`, non-empty string
segments are kept verbatim, and empty-string segments are dropped. -/
theorem claim_C7_label_coercion (k : Int) (s : String) (hs : s ≠ "") :
    (nodeInit "" [] [PyVal.int k, PyVal.str s, PyVal.str ""] none "regtext").label
      = [toString k, s] := by
  simp [nodeInit, labelInit, List.filter, pyValNeEmpty, pyValStr, hs]

/-- C7 (witness). -/
theorem claim_C7_label_coercion_witness :
    (nodeInit "" [] [PyVal.int (-3), PyVal.str "a", PyVal.str ""] none "regtext").label
      = [toString (-3 : Int), "a"] :=
  claim_C7_label_coercion (-3) "a" (by decide)

/-! ## Claim C5: `node_type` and the canonical representation -/

/-- A frozen node for the C5 counterexample. -/
def fzRegtext : FrozenNode := .mk "t" [] ["1"] "ti" "regtext" "tag"

/-- The same frozen node with a different `node_type`. -/
def fzInterp : FrozenNode := .mk "t" [] ["1"] "ti" "interp" "tag"

set_option maxRecDepth 40000 in
/-- C5 (counterexample): two `FrozenNode` values that agree on `text`,
`children`, `label`, `title` and `tagged_text` but differ in `node_type`
are *equal* under `__cmp__` and hash equally — `__repr__` does not render
`node_type`, contradicting the claim that such a pair is unequal. -/
theorem claim_C5_counterexample :
    frozenEq fzRegtext fzInterp = true ∧
      frozenHash fzRegtext = frozenHash fzInterp ∧
      fzRegtext.node_type ≠ fzInterp.node_type ∧
      fzRegtext.text = fzInterp.text ∧ fzRegtext.children = fzInterp.children ∧
      fzRegtext.label = fzInterp.label ∧ fzRegtext.title = fzInterp.title ∧
      fzRegtext.tagged_text = fzInterp.tagged_text := by
  refine ⟨by decide, by decide, by decide, rfl, rfl, rfl, rfl, rfl⟩

/-- C5 (amended): `node_type` is *not* part of the canonical
representation used for structural equality and hashing: any two
`FrozenNode` values agreeing on `text`, `children`, `label` and `title`
are equal and hash equally, whatever their `node_type` and
`tagged_text`. -/
theorem claim_C5_node_type_not_canonical (t : String) (cs : List FrozenNode)
    (l : List String) (ti nt1 nt2 tt1 tt2 : String) :
    frozenEq (.mk t cs l ti nt1 tt1) (.mk t cs l ti nt2 tt2) = true ∧
      frozenHash (.mk t cs l ti nt1 tt1) = frozenHash (.mk t cs l ti nt2 tt2) := by
  constructor
  · simp [frozenEq, frozenRepr]
  · simp [frozenHash, frozenRepr]

/-! ## Claim C4: the `is_child` selection test of `treeify` -/

theorem mem_selectedDescendants {rootLabel : List String} {nodes : List Node}
    {n : Node} :
    n ∈ selectedDescendants rootLabel nodes ↔
      n ∈ nodes ∧ n.label ≠ rootLabel ∧ is_child rootLabel n.label = true := by
  simp only [selectedDescendants, List.mem_filter, Bool.and_eq_true,
    decide_eq_true_eq, and_assoc]

/-- C4: a node `n` of the input is selected as a descendant of a
candidate root `r` iff it is not labelled like `r` and passes the
`is_child` test, which compares `n.label`'s prefix of length
`len(r.label) - 1` against `r.label` minus its trailing sentinel when
`r` is an interpretive-overlay root, and demands `r.label` as an exact
prefix of length `len(r.label)` otherwise. -/
theorem claim_C4_child_selection (r : Node) (nodes : List Node) (n : Node)
    (_hr : r.label ≠ []) :
    (r.label.getLast? = some "Interp" →
      (n ∈ selectedDescendants r.label nodes ↔
        n ∈ nodes ∧ n.label ≠ r.label ∧
          n.label.take (r.label.length - 1) = r.label.dropLast)) ∧
    (r.label.getLast? ≠ some "Interp" →
      (n ∈ selectedDescendants r.label nodes ↔
        n ∈ nodes ∧ n.label ≠ r.label ∧
          n.label.take r.label.length = r.label)) := by
  constructor
  · intro hI
    rw [mem_selectedDescendants, is_child, if_pos hI, decide_eq_true_eq]
  · intro hI
    rw [mem_selectedDescendants, is_child, if_neg hI, decide_eq_true_eq]

/-- An interpretive-overlay candidate root. -/
def rInterp : Node := .mk "" [] ["1", "Interp"] none "interp"

/-- A node adopted by `rInterp` although its label does not extend
`["1", "Interp"]`. -/
def nAdopted : Node := .mk "" [] ["1", "a"] none "regtext"

/-- C4 (witness). -/
theorem claim_C4_child_selection_witness :
    (rInterp.label.getLast? = some "Interp" →
      (nAdopted ∈ selectedDescendants rInterp.label [nAdopted] ↔
        nAdopted ∈ [nAdopted] ∧ nAdopted.label ≠ rInterp.label ∧
          nAdopted.label.take (rInterp.label.length - 1) = rInterp.label.dropLast)) ∧
    (rInterp.label.getLast? ≠ some "Interp" →
      (nAdopted ∈ selectedDescendants rInterp.label [nAdopted] ↔
        nAdopted ∈ [nAdopted] ∧ nAdopted.label ≠ rInterp.label ∧
          nAdopted.label.take rInterp.label.length = rInterp.label)) :=
  claim_C4_child_selection rInterp [nAdopted] nAdopted (by decide)

/-! ## Claim C6: which duplicate pair is acted on -/

/-- Scan order on index pairs: outer index first, then inner index. -/
def scanLT (p q : Nat × Nat) : Prop :=
  p.1 < q.1 ∨ (p.1 = q.1 ∧ p.2 < q.2)

theorem pairsFrom_pairwise (i n : Nat) : (pairsFrom i n).Pairwise scanLT := by
  rw [pairsFrom, List.pairwise_map]
  exact (List.pairwise_lt_range n).filter _ |>.imp (fun h => Or.inr ⟨rfl, h⟩)

theorem pairListAux_pairwise : ∀ (k n : Nat), k ≤ n →
    (pairListAux k n).Pairwise scanLT := by
  intro k
  induction k with
  | zero => intro n _; exact List.Pairwise.nil
  | succ k ih =>
      intro n hkn
      rw [pairListAux, List.pairwise_append]
      refine ⟨pairsFrom_pairwise _ _, ih n (by omega), ?_⟩
      intro p hp q hq
      rcases mem_pairsFrom.mp hp with ⟨hp1, hp2, hp3⟩
      rcases (mem_pairListAux (by omega : k ≤ n)).mp hq with ⟨hq1, _, _⟩
      left
      omega

theorem pairList_pairwise (i n : Nat) : (pairList i n).Pairwise scanLT :=
  pairListAux_pairwise _ _ (Nat.sub_le n i)

/-- `find?` on a sorted list dominates every other hit. -/
theorem find?_sorted_dom {α : Type} {S : α → α → Prop} {cond : α → Bool} {p : α} :
    ∀ {l : List α}, l.Pairwise S → l.find? cond = some p →
      ∀ q ∈ l, cond q = true → q = p ∨ S p q := by
  intro l
  induction l with
  | nil => intro _ h; cases h
  | cons x xs ih =>
      intro hpw hfind q hq hcond
      rw [List.find?_cons] at hfind
      rcases List.pairwise_cons.mp hpw with ⟨hx, hxs⟩
      by_cases hcx : cond x
      · simp only [hcx] at hfind
        cases hfind
        rcases List.mem_cons.mp hq with rfl | hq'
        · exact Or.inl rfl
        · exact Or.inr (hx q hq')
      · rw [Bool.not_eq_true] at hcx
        simp only [hcx] at hfind
        rcases List.mem_cons.mp hq with rfl | hq'
        · rw [hcond] at hcx; cases hcx
        · exact ih hxs hfind q hq' hcond

/-- C6 (amended): the pair acted on by `merge_duplicates` is the
matching pair encountered *last* in the scan order — the matching pair
with the largest outer index `i`, and among those the largest inner
index `j` — not the pair with the highest `j`. -/
theorem claim_C6_last_scanned_pair {nodes : List Node} {li ri : Nat}
    (h : lastDupPair nodes = some (li, ri)) :
    li < ri ∧ ri < nodes.length ∧ labelsMatch nodes (li, ri) = true ∧
      ∀ a b, a < b → b < nodes.length → labelsMatch nodes (a, b) = true →
        (a, b) = (li, ri) ∨ a < li ∨ (a = li ∧ b < ri) := by
  obtain ⟨h1, h2, h3⟩ := lastDupPair_bounds h
  refine ⟨h1, h2, h3, ?_⟩
  intro a b hab hbn hmatch
  rw [lastDupPair_eq_find] at h
  have hpw : (pairList 0 nodes.length).reverse.Pairwise (fun x y => scanLT y x) :=
    List.pairwise_reverse.mpr ((pairList_pairwise 0 nodes.length).imp id)
  have hmem : (a, b) ∈ (pairList 0 nodes.length).reverse := by
    rw [List.mem_reverse, mem_pairList]
    exact ⟨Nat.zero_le _, hab, hbn⟩
  rcases find?_sorted_dom hpw h (a, b) hmem hmatch with heq | hlt
  · exact Or.inl heq
  · rcases hlt with hlt | ⟨heq, hlt⟩
    · exact Or.inr (Or.inl hlt)
    · exact Or.inr (Or.inr ⟨heq, hlt⟩)

/-- The C6 counterexample list: labels `A, B, B, A`. -/
def exC6 : List Node :=
  [.mk "" [] ["A"] none "regtext", .mk "" [] ["B"] none "regtext",
   .mk "" [] ["B"] none "regtext", .mk "" [] ["A"] none "regtext"]

set_option maxRecDepth 40000 in
/-- C6 (counterexample): on labels `A, B, B, A` the scan's last match —
the pair `merge_duplicates` acts on — is `(1, 2)`, although the matching
pair `(0, 3)` has the higher inner index `3 > 2`; the claim's
"highest j" characterisation picks the wrong pair here. -/
theorem claim_C6_counterexample :
    lastDupPair exC6 = some (1, 2) ∧ labelsMatch exC6 (0, 3) = true ∧
      (1, 2).2 < (0, 3).2 := by
  refine ⟨by decide, by decide, by decide⟩

set_option maxRecDepth 40000 in
/-- C6 (witness). -/
theorem claim_C6_last_scanned_pair_witness :
    1 < 2 ∧ 2 < exC6.length ∧ labelsMatch exC6 (1, 2) = true ∧
      ∀ a b, a < b → b < exC6.length → labelsMatch exC6 (a, b) = true →
        (a, b) = (1, 2) ∨ a < 1 ∨ (a = 1 ∧ b < 2) :=
  claim_C6_last_scanned_pair (by decide)

/-! ## Claim C10: the frame of one merge step -/

theorem mergeDuplicates_eq_of_some {nodes : List Node} {li ri : Nat}
    (h : lastDupPair nodes = some (li, ri)) :
    merge_duplicates nodes = merge_duplicates (mergeStep nodes li ri) := by
  rw [merge_duplicates.eq_def]
  split
  · rename_i heq
    rw [heq] at h
    cases h
  · rename_i li2 ri2 heq
    rw [heq] at h
    cases h
    rfl

theorem mergeDuplicates_eq_of_none {nodes : List Node}
    (h : lastDupPair nodes = none) : merge_duplicates nodes = nodes := by
  rw [merge_duplicates.eq_def]
  split
  · rfl
  · rename_i li2 ri2 heq
    rw [heq] at h
    cases h

theorem mergeStep_getElem {nodes : List Node} {li ri : Nat} {lhs rhs : Node}
    (hlr : li < ri) (hrn : ri < nodes.length)
    (hlhs : nodes[li]? = some lhs) (hrhs : nodes[ri]? = some rhs) :
    (mergeStep nodes li ri)[li]?
        = some (lhs.withChildren (lhs.children ++ rhs.children)) ∧
      (∀ k, k ≠ li → k < ri → (mergeStep nodes li ri)[k]? = nodes[k]?) ∧
      (∀ k, ri ≤ k → (mergeStep nodes li ri)[k]? = nodes[k + 1]?) := by
  have hln : li < nodes.length := Nat.lt_trans hlr hrn
  rw [mergeStep, hlhs, hrhs]
  refine ⟨?_, ?_, ?_⟩
  · rw [List.getElem?_eraseIdx, if_pos hlr, List.getElem?_set, if_pos rfl,
      if_pos hln]
  · intro k hkli hkri
    rw [List.getElem?_eraseIdx, if_pos hkri, List.getElem?_set,
      if_neg (fun hh => hkli hh.symm)]
  · intro k hrik
    rw [List.getElem?_eraseIdx, if_neg (by omega), List.getElem?_set,
      if_neg (by omega)]

/-- C10: one merge step of `merge_duplicates`, acting on the pair
`(li, ri)` remembered by the scan, only extends the children of the
element at the lower index `li` (its `text`, `label`, `title` and
`node_type` are untouched); every element at another surviving position
is unchanged, the element at `ri` is dropped, and the survivors keep
their relative order; the recursion continues on exactly that list. -/
theorem claim_C10_merge_step_frame {nodes : List Node} {li ri : Nat}
    {lhs rhs : Node} (h : lastDupPair nodes = some (li, ri))
    (hlhs : nodes[li]? = some lhs) (hrhs : nodes[ri]? = some rhs) :
    merge_duplicates nodes = merge_duplicates (mergeStep nodes li ri) ∧
      (mergeStep nodes li ri).length + 1 = nodes.length ∧
      (mergeStep nodes li ri)[li]?
        = some (lhs.withChildren (lhs.children ++ rhs.children)) ∧
      (lhs.withChildren (lhs.children ++ rhs.children)).text = lhs.text ∧
      (lhs.withChildren (lhs.children ++ rhs.children)).label = lhs.label ∧
      (lhs.withChildren (lhs.children ++ rhs.children)).title = lhs.title ∧
      (lhs.withChildren (lhs.children ++ rhs.children)).node_type = lhs.node_type ∧
      (lhs.withChildren (lhs.children ++ rhs.children)).children
        = lhs.children ++ rhs.children ∧
      (∀ k, k ≠ li → k < ri → (mergeStep nodes li ri)[k]? = nodes[k]?) ∧
      (∀ k, ri ≤ k → (mergeStep nodes li ri)[k]? = nodes[k + 1]?) := by
  obtain ⟨h1, h2, _⟩ := lastDupPair_bounds h
  obtain ⟨g1, g2, g3⟩ := mergeStep_getElem h1 h2 hlhs hrhs
  exact ⟨mergeDuplicates_eq_of_some h, mergeStep_length h1 h2, g1,
    rfl, rfl, rfl, rfl, rfl, g2, g3⟩

/-- Children markers for the C10 witness. -/
def chA : Node := .mk "ca" [] ["1", "a"] none "regtext"

/-- Children markers for the C10 witness. -/
def chB : Node := .mk "cb" [] ["1", "b"] none "regtext"

/-- The C10 witness list: two nodes labelled `1` with distinct children,
then an unrelated node. -/
def exC10 : List Node :=
  [.mk "x" [chA] ["1"] none "regtext", .mk "y" [chB] ["1"] none "regtext",
   .mk "z" [] ["2"] none "regtext"]

set_option maxRecDepth 40000 in
/-- C10 (witness). -/
theorem claim_C10_merge_step_frame_witness :
    merge_duplicates exC10 = merge_duplicates (mergeStep exC10 0 1) ∧
      (mergeStep exC10 0 1).length + 1 = exC10.length ∧
      (mergeStep exC10 0 1)[0]?
        = some ((Node.mk "x" [chA] ["1"] none "regtext").withChildren
            ([chA] ++ [chB])) ∧
      ((Node.mk "x" [chA] ["1"] none "regtext").withChildren
          ([chA] ++ [chB])).text = (Node.mk "x" [chA] ["1"] none "regtext").text ∧
      ((Node.mk "x" [chA] ["1"] none "regtext").withChildren
          ([chA] ++ [chB])).label = (Node.mk "x" [chA] ["1"] none "regtext").label ∧
      ((Node.mk "x" [chA] ["1"] none "regtext").withChildren
          ([chA] ++ [chB])).title = (Node.mk "x" [chA] ["1"] none "regtext").title ∧
      ((Node.mk "x" [chA] ["1"] none "regtext").withChildren
          ([chA] ++ [chB])).node_type
        = (Node.mk "x" [chA] ["1"] none "regtext").node_type ∧
      ((Node.mk "x" [chA] ["1"] none "regtext").withChildren
          ([chA] ++ [chB])).children = [chA] ++ [chB] ∧
      (∀ k, k ≠ 0 → k < 1 → (mergeStep exC10 0 1)[k]? = exC10[k]?) ∧
      (∀ k, 1 ≤ k → (mergeStep exC10 0 1)[k]? = exC10[k + 1]?) :=
  @claim_C10_merge_step_frame exC10 0 1 (Node.mk "x" [chA] ["1"] none "regtext")
    (Node.mk "y" [chB] ["1"] none "regtext") (by decide) rfl rfl

/-! ## Claim C3: `merge_duplicates` output -/

theorem labelsMatch_iff {nodes : List Node} {i j : Nat}
    (hi : i < nodes.length) (hj : j < nodes.length) :
    labelsMatch nodes (i, j) = true ↔ nodes[i].label = nodes[j].label := by
  rw [labelsMatch, nodeLabels]
  rw [List.getElem?_map, List.getElem?_map,
    List.getElem?_eq_getElem hi, List.getElem?_eq_getElem hj]
  simp only [Option.map_some']
  rw [beq_iff_eq, Option.some.injEq]

/-- The scan finds nothing iff all labels are pairwise distinct. -/
theorem lastDupPair_eq_none_iff {nodes : List Node} :
    lastDupPair nodes = none ↔
      nodes.Pairwise (fun a b => a.label ≠ b.label) := by
  rw [lastDupPair_eq_find, List.find?_eq_none, List.pairwise_iff_getElem]
  constructor
  · intro h i j hi hj hij
    have hm : (i, j) ∈ (pairList 0 nodes.length).reverse := by
      rw [List.mem_reverse, mem_pairList]
      exact ⟨Nat.zero_le _, hij, hj⟩
    intro hc
    exact h (i, j) hm ((labelsMatch_iff hi hj).mpr hc)
  · intro h p hp
    rw [List.mem_reverse, mem_pairList] at hp
    obtain ⟨-, h12, h2n⟩ := hp
    have h1n : p.1 < nodes.length := Nat.lt_trans h12 h2n
    intro hc
    exact h p.1 p.2 h1n h2n h12 ((labelsMatch_iff h1n h2n).mp hc)

/-- The full recursion of `merge_duplicates` always reaches a list with
pairwise distinct labels. -/
theorem mergeDuplicates_labels_pairwise_ne (nodes : List Node) :
    (merge_duplicates nodes).Pairwise (fun a b => a.label ≠ b.label) := by
  induction nodes using merge_duplicates.induct with
  | case1 nodes h =>
      rw [mergeDuplicates_eq_of_none h]
      exact lastDupPair_eq_none_iff.mp h
  | case2 nodes li ri h ih =>
      rw [mergeDuplicates_eq_of_some h]
      exact ih

theorem find?_of_unique {α : Type} {cond : α → Bool} {x : α} :
    ∀ {l : List α}, x ∈ l → cond x = true →
      (∀ y ∈ l, cond y = true → y = x) → l.find? cond = some x := by
  intro l
  induction l with
  | nil => intro h; cases h
  | cons z zs ih =>
      intro hx hcx huniq
      rw [List.find?_cons]
      by_cases hcz : cond z
      · simp only [hcz]
        rw [huniq z (List.mem_cons_self z zs) hcz]
      · rw [Bool.not_eq_true] at hcz
        simp only [hcz]
        rcases List.mem_cons.mp hx with rfl | hx'
        · rw [hcx] at hcz; cases hcz
        · exact ih hx' hcx (fun y hy hcy => huniq y (List.mem_cons_of_mem z hy) hcy)

theorem lastDupPair_of_unique {nodes : List Node} {i j : Nat}
    (hij : i < j) (hjn : j < nodes.length)
    (hm : labelsMatch nodes (i, j) = true)
    (hu : ∀ p ∈ pairList 0 nodes.length, labelsMatch nodes p = true → p = (i, j)) :
    lastDupPair nodes = some (i, j) := by
  rw [lastDupPair_eq_find]
  refine find?_of_unique ?_ hm ?_
  · rw [List.mem_reverse, mem_pairList]
    exact ⟨Nat.zero_le _, hij, hjn⟩
  · intro y hy hcy
    exact hu y (List.mem_reverse.mp hy) hcy

theorem filter_eq_singleton_of_indexed {α : Type} {p : α → Bool} {a : α} :
    ∀ {l : List α} {k : Nat}, l[k]? = some a → p a = true →
      (∀ m x, l[m]? = some x → p x = true → m = k) → l.filter p = [a] := by
  intro l
  induction l with
  | nil => intro k hk; cases hk
  | cons y ys ih =>
      intro k hk hp huniq
      cases k with
      | zero =>
          simp only [List.getElem?_cons_zero, Option.some.injEq] at hk
          subst hk
          rw [List.filter_cons, if_pos hp]
          have hrest : ys.filter p = [] := by
            rw [List.filter_eq_nil_iff]
            intro x hx hpx
            obtain ⟨m, hm⟩ := List.mem_iff_getElem?.mp hx
            have : m + 1 = 0 := huniq (m + 1) x (by simpa using hm) hpx
            cases this
          rw [hrest]
      | succ m =>
          simp only [List.getElem?_cons_succ] at hk
          have hpy : p y = false := by
            by_contra hpy
            rw [Bool.not_eq_false] at hpy
            have : 0 = m + 1 := huniq 0 y (by simp) hpy
            cases this
          rw [List.filter_cons, hpy, if_neg (by simp)]
          exact ih hk hp (fun m' x hm' hpx => by
            have : m' + 1 = m + 1 := huniq (m' + 1) x (by simpa using hm') hpx
            omega)

theorem mergeStep_pairwise_of_unique {nodes : List Node} {i j : Nat}
    {lhs rhs : Node} (hij : i < j) (hjn : j < nodes.length)
    (hu : ∀ p ∈ pairList 0 nodes.length, labelsMatch nodes p = true → p = (i, j))
    (hlhs : nodes[i]? = some lhs) (hrhs : nodes[j]? = some rhs) :
    (mergeStep nodes i j).Pairwise (fun a b => a.label ≠ b.label) := by
  obtain ⟨g1, g2, g3⟩ := mergeStep_getElem hij hjn hlhs hrhs
  have hlen := mergeStep_length hij hjn
  have hlow : ∀ k, k < j →
      (mergeStep nodes i j)[k]?.map Node.label = nodes[k]?.map Node.label := by
    intro k hk
    by_cases hki : k = i
    · subst hki
      rw [g1, hlhs]
      rfl
    · rw [g2 k hki hk]
  have huni : ∀ k, k < (mergeStep nodes i j).length →
      ∃ kk, kk < nodes.length ∧ kk ≠ j ∧ k ≤ kk ∧ kk ≤ k + 1 ∧ (k < j ↔ kk = k) ∧
        nodes[kk]?.map Node.label = (mergeStep nodes i j)[k]?.map Node.label := by
    intro k hk
    by_cases hkj : k < j
    · exact ⟨k, by omega, by omega, Nat.le_refl _, by omega,
        by constructor <;> intro <;> omega, (hlow k hkj).symm⟩
    · refine ⟨k + 1, by omega, by omega, by omega, Nat.le_refl _,
        by constructor <;> intro <;> omega, ?_⟩
      rw [g3 k (by omega)]
  rw [List.pairwise_iff_getElem]
  intro a b ha hb hab
  obtain ⟨aa, haa1, haa2, haa3, haa4, haa5, haa6⟩ := huni a ha
  obtain ⟨bb, hbb1, hbb2, hbb3, hbb4, hbb5, hbb6⟩ := huni b hb
  intro hEq
  rw [List.getElem?_eq_getElem ha, List.getElem?_eq_getElem haa1] at haa6
  rw [List.getElem?_eq_getElem hb, List.getElem?_eq_getElem hbb1] at hbb6
  simp only [Option.map_some', Option.some.injEq] at haa6 hbb6
  have haabb : aa < bb := by omega
  have hmatch : labelsMatch nodes (aa, bb) = true := by
    rw [labelsMatch_iff haa1 hbb1, haa6, hbb6, hEq]
  have := hu (aa, bb) (mem_pairList.mpr ⟨Nat.zero_le _, haabb, hbb1⟩) hmatch
  rw [Prod.mk.injEq] at this
  omega

/-- C3: on input whose labels all have one common length,
`merge_duplicates` returns a list with pairwise distinct labels; and when
the input holds exactly one duplicated pair — positions `i < j` with
equal labels, every other pair distinct — the result contains exactly one
element with that label, whose children are the children of the earlier
element followed by the children of the later one. -/
theorem claim_C3_merge_duplicates :
    (∀ (nodes : List Node) (L : Nat), (∀ n ∈ nodes, n.label.length = L) →
      (merge_duplicates nodes).Pairwise (fun a b => a.label ≠ b.label)) ∧
    (∀ (nodes : List Node) (i j : Nat) (lhs rhs : Node) (L : Nat),
      (∀ n ∈ nodes, n.label.length = L) →
      i < j → j < nodes.length →
      labelsMatch nodes (i, j) = true →
      (∀ p ∈ pairList 0 nodes.length, labelsMatch nodes p = true → p = (i, j)) →
      nodes[i]? = some lhs → nodes[j]? = some rhs →
      (merge_duplicates nodes).filter (fun x => decide (x.label = lhs.label)) =
        [lhs.withChildren (lhs.children ++ rhs.children)]) := by
  constructor
  · intro nodes L _
    exact mergeDuplicates_labels_pairwise_ne nodes
  · intro nodes i j lhs rhs L _ hij hjn hm hu hlhs hrhs
    have hl : lastDupPair nodes = some (i, j) := lastDupPair_of_unique hij hjn hm hu
    have hpw := mergeStep_pairwise_of_unique hij hjn hu hlhs hrhs
    have hfinal : merge_duplicates nodes = mergeStep nodes i j := by
      rw [mergeDuplicates_eq_of_some hl,
        mergeDuplicates_eq_of_none (lastDupPair_eq_none_iff.mpr hpw)]
    rw [hfinal]
    obtain ⟨g1, g2, g3⟩ := mergeStep_getElem hij hjn hlhs hrhs
    refine filter_eq_singleton_of_indexed g1 (by simp) ?_
    have hlen := mergeStep_length hij hjn
    have hlow : ∀ k, k < j →
        (mergeStep nodes i j)[k]?.map Node.label = nodes[k]?.map Node.label := by
      intro k hk
      by_cases hki : k = i
      · subst hki
        rw [g1, hlhs]
        rfl
      · rw [g2 k hki hk]
    intro m x hmx hpx
    have hm' : m < (mergeStep nodes i j).length := (List.getElem?_eq_some.mp hmx).1
    have hil : i < nodes.length := Nat.lt_trans hij hjn
    have hlhsval : nodes[i] = lhs := by
      have := List.getElem?_eq_getElem hil
      rw [hlhs] at this
      exact (Option.some.injEq _ _).mp this.symm
    rw [decide_eq_true_eq] at hpx
    -- the old index corresponding to m
    by_cases hmj : m < j
    · have := hlow m hmj
      rw [hmx, List.getElem?_eq_getElem (by omega : m < nodes.length)] at this
      simp only [Option.map_some', Option.some.injEq] at this
      -- nodes[m].label = x.label = lhs.label = nodes[i].label
      by_cases hmi : m = i
      · exact hmi
      · exfalso
        have hml : nodes[m].label = nodes[i].label := by
          rw [← this, hpx, hlhsval]
        rcases Nat.lt_or_ge m i with hlt | hge
        · have : labelsMatch nodes (m, i) = true := (labelsMatch_iff (by omega) hil).mpr hml
          have := hu (m, i) (mem_pairList.mpr ⟨Nat.zero_le _, hlt, hil⟩) this
          rw [Prod.mk.injEq] at this
          omega
        · have him : i < m := by omega
          have : labelsMatch nodes (i, m) = true :=
            (labelsMatch_iff hil (by omega)).mpr hml.symm
          have := hu (i, m) (mem_pairList.mpr ⟨Nat.zero_le _, him, by omega⟩) this
          rw [Prod.mk.injEq] at this
          omega
    · exfalso
      have := g3 m (by omega)
      rw [hmx] at this
      have hm1 : m + 1 < nodes.length := by omega
      rw [List.getElem?_eq_getElem hm1] at this
      have hml : nodes[m + 1].label = nodes[i].label := by
        have : x = nodes[m + 1] := (Option.some.injEq _ _).mp this
        rw [← this, hpx, hlhsval]
      have him : i < m + 1 := by omega
      have hmm : labelsMatch nodes (i, m + 1) = true :=
        (labelsMatch_iff hil hm1).mpr hml.symm
      have := hu (i, m + 1) (mem_pairList.mpr ⟨Nat.zero_le _, him, hm1⟩) hmm
      rw [Prod.mk.injEq] at this
      omega

/-- The C3 witness list: labels `1, 2, 1`, the two `1`-labelled nodes
carrying distinct children. -/
def exC3 : List Node :=
  [.mk "x" [chA] ["1"] none "regtext", .mk "m" [] ["2"] none "regtext",
   .mk "y" [chB] ["1"] none "regtext"]

set_option maxRecDepth 40000 in
/-- C3 (witness). -/
theorem claim_C3_merge_duplicates_witness :
    (merge_duplicates exC3).Pairwise (fun a b => a.label ≠ b.label) ∧
      (merge_duplicates exC3).filter
          (fun x => decide (x.label = (Node.mk "x" [chA] ["1"] none "regtext").label))
        = [(Node.mk "x" [chA] ["1"] none "regtext").withChildren ([chA] ++ [chB])] :=
  ⟨claim_C3_merge_duplicates.1 exC3 1 (by decide),
   claim_C3_merge_duplicates.2 exC3 0 2 (Node.mk "x" [chA] ["1"] none "regtext")
     (Node.mk "y" [chB] ["1"] none "regtext") 1 (by decide) (by decide) (by decide)
     (by decide) (by decide) rfl rfl⟩

/-! ## Claim C9: totality of the reconstruction on well-formed input -/

theorem mem_of_getElem?_some {α : Type} {l : List α} {n : Nat} {a : α}
    (h : l[n]? = some a) : a ∈ l := by
  obtain ⟨hn, he⟩ := List.getElem?_eq_some.mp h
  exact he ▸ List.getElem_mem hn

theorem withMinAux_subset {x : Node} :
    ∀ {rest : List Node} {m : Nat} {acc : List Node},
      x ∈ withMinAux m acc rest → x ∈ acc ∨ x ∈ rest := by
  intro rest
  induction rest with
  | nil => intro m acc h; exact Or.inl h
  | cons n ns ih =>
      intro m acc h
      rw [withMinAux] at h
      split at h
      · rcases ih h with hacc | hns
        · rcases List.mem_append.mp hacc with h1 | h1
          · exact Or.inl h1
          · exact Or.inr (List.mem_cons.mpr (Or.inl (List.mem_singleton.mp h1)))
        · exact Or.inr (List.mem_cons_of_mem n hns)
      · split at h
        · rcases ih h with hacc | hns
          · exact Or.inr (List.mem_cons.mpr (Or.inl (List.mem_singleton.mp hacc)))
          · exact Or.inr (List.mem_cons_of_mem n hns)
        · rcases ih h with hacc | hns
          · exact Or.inl hacc
          · exact Or.inr (List.mem_cons_of_mem n hns)

theorem withMin_subset {x : Node} {nodes : List Node}
    (h : x ∈ withMin nodes) : x ∈ nodes := by
  match nodes with
  | [] => cases h
  | n :: rest =>
      rw [withMin] at h
      rcases withMinAux_subset h with hacc | hmem
      · cases hacc
      · exact hmem

theorem mergeStep_label_mem {nodes : List Node} {li ri : Nat}
    (h1 : li < ri) (h2 : ri < nodes.length) :
    ∀ x ∈ mergeStep nodes li ri, ∃ y ∈ nodes, y.label = x.label := by
  have hl : li < nodes.length := Nat.lt_trans h1 h2
  have hlhs : nodes[li]? = some nodes[li] := List.getElem?_eq_getElem hl
  have hrhs : nodes[ri]? = some nodes[ri] := List.getElem?_eq_getElem h2
  obtain ⟨g1, g2, g3⟩ := mergeStep_getElem h1 h2 hlhs hrhs
  intro x hx
  obtain ⟨m, hm⟩ := List.mem_iff_getElem?.mp hx
  by_cases hmr : m < ri
  · by_cases hmi : m = li
    · subst hmi
      rw [g1] at hm
      cases hm
      exact ⟨nodes[m], List.getElem_mem hl, rfl⟩
    · rw [g2 m hmi hmr] at hm
      exact ⟨x, mem_of_getElem?_some hm, rfl⟩
  · rw [g3 m (by omega)] at hm
    exact ⟨x, mem_of_getElem?_some hm, rfl⟩

theorem mergeDuplicates_label_mem :
    ∀ (nodes : List Node) (x : Node), x ∈ merge_duplicates nodes →
      ∃ y ∈ nodes, y.label = x.label := by
  intro nodes
  induction nodes using merge_duplicates.induct with
  | case1 nodes h =>
      intro x hx
      rw [mergeDuplicates_eq_of_none h] at hx
      exact ⟨x, hx, rfl⟩
  | case2 nodes li ri h ih =>
      intro x hx
      rw [mergeDuplicates_eq_of_some h] at hx
      obtain ⟨hlr, hrn, -⟩ := lastDupPair_bounds h
      obtain ⟨y, hy, hylab⟩ := ih x hx
      obtain ⟨z, hz, hzlab⟩ := mergeStep_label_mem hlr hrn y hy
      exact ⟨z, hz, hzlab.trans hylab⟩

theorem selectedDescendants_length_lt {rootLabel : List String}
    {nodes : List Node} {y : Node} (hy : y ∈ nodes) (hylab : y.label = rootLabel) :
    (selectedDescendants rootLabel nodes).length < nodes.length := by
  rw [selectedDescendants]
  rw [List.length_filter_lt_length_iff_exists]
  refine ⟨y, hy, ?_⟩
  simp [hylab]

/-- Fuel adequacy: with more fuel than nodes, `treeifyFuel` never hits
the recursion bound, and, as long as every label is non-empty, never the
`IndexError` branch either. -/
theorem treeifyFuel_ok : ∀ (f : Nat),
    (∀ nodes : List Node, nodes.length < f → (∀ n ∈ nodes, n.label ≠ []) →
      ∃ r, treeifyFuel f nodes = .ok r) ∧
    (∀ (nodes roots : List Node), nodes.length ≤ f →
      (∀ n ∈ nodes, n.label ≠ []) →
      (∀ r ∈ roots, ∃ y ∈ nodes, y.label = r.label) →
      ∃ r, treeifyRootsFuel f nodes roots = .ok r) := by
  intro f
  induction f using Nat.strong_induction_on with
  | _ f ih =>
      have hFuel : ∀ nodes : List Node, nodes.length < f →
          (∀ n ∈ nodes, n.label ≠ []) → ∃ r, treeifyFuel f nodes = .ok r := by
        intro nodes hlen hlab
        match f, nodes with
        | g + 1, [] => exact ⟨[], by simp [treeifyFuel]⟩
        | g + 1, n :: rest =>
            rw [treeifyFuel]
            refine (ih g (Nat.lt_succ_self g)).2 (n :: rest)
              (merge_duplicates (withMin (n :: rest))) (by omega) hlab ?_
            intro r hr
            obtain ⟨y, hy, hylab⟩ := mergeDuplicates_label_mem _ r hr
            exact ⟨y, withMin_subset hy, hylab⟩
      refine ⟨hFuel, ?_⟩
      intro nodes roots hlen hlab hroots
      induction roots with
      | nil => exact ⟨[], by simp [treeifyRootsFuel]⟩
      | cons r rs ihr =>
          obtain ⟨y, hy, hylab⟩ := hroots r (List.mem_cons_self r rs)
          have hrne : r.label ≠ [] := hylab ▸ hlab y hy
          obtain ⟨l0, hl0⟩ : ∃ l0, r.label.getLast? = some l0 := by
            cases hgl : r.label.getLast? with
            | none => exact absurd (List.getLast?_eq_none_iff.mp hgl) hrne
            | some l0 => exact ⟨l0, rfl⟩
          have hsel : (selectedDescendants r.label nodes).length < nodes.length :=
            selectedDescendants_length_lt hy hylab
          obtain ⟨sub, hsub⟩ := hFuel (selectedDescendants r.label nodes)
            (by omega) (fun n hn =>
              hlab n (List.mem_of_mem_filter hn))
          obtain ⟨rest2, hrest2⟩ := ihr
            (fun q hq => hroots q (List.mem_cons_of_mem r hq))
          refine ⟨r.withChildren (r.children ++ sub) :: rest2, ?_⟩
          rw [treeifyRootsFuel]
          simp only [hl0, hsub, hrest2]

/-- C9: `treeify` of the empty list is `ok []`, and on any input whose
labels are all non-empty `treeify` returns a result rather than an
error — in particular the `IndexError` branch of `root.label[-1]` and
the recursion bound are unreachable. -/
theorem claim_C9_treeify_total :
    treeify [] = .ok [] ∧
      ∀ nodes : List Node, (∀ n ∈ nodes, n.label ≠ []) →
        ∃ r, treeify nodes = .ok r := by
  constructor
  · simp [treeify, treeifyFuel]
  · intro nodes h
    exact (treeifyFuel_ok (nodes.length + 1)).1 nodes (Nat.lt_succ_self _) h

set_option maxRecDepth 40000 in
/-- C9 (witness). -/
theorem claim_C9_treeify_total_witness :
    treeify [] = .ok [] ∧ ∃ r, treeify exC3 = .ok r :=
  ⟨claim_C9_treeify_total.1, claim_C9_treeify_total.2 exC3 (by decide)⟩

/-! ## Claim C8: the serialization round trip -/

theorem decodeJList_map_str : ∀ l : List String,
    decodeJList (l.map JVal.str) = l.map DVal.str := by
  intro l
  induction l with
  | nil => rfl
  | cons s ss ih => rw [List.map_cons, decodeJList, ih, decodeJVal, List.map_cons]

theorem dvalLabel_map_str : ∀ l : List String, (∀ s ∈ l, s ≠ "") →
    dvalLabel (l.map DVal.str) = l := by
  intro l
  induction l with
  | nil => intro; rfl
  | cons s ss ih =>
      intro h
      have hs : s ≠ "" := h s (List.mem_cons_self s ss)
      have htail := ih (fun x hx => h x (List.mem_cons_of_mem s hx))
      rw [dvalLabel] at htail ⊢
      rw [List.map_cons, List.filter_cons, if_pos (decide_eq_true hs),
        List.map_cons, htail]
      rfl

theorem map_dvalToNode_node : ∀ cs : List Node,
    (cs.map DVal.node).map dvalToNode = cs := by
  intro cs
  induction cs with
  | nil => rfl
  | cons c cc ih =>
      rw [List.map_cons, List.map_cons, ih]
      rfl

theorem decode_encode_aux : ∀ (N : Nat),
    (∀ cs : List Node, sizeOf cs ≤ N → nodeNormalizedList cs = true →
      decodeJList (encodeNodeList cs) = cs.map DVal.node) ∧
    (∀ n : Node, sizeOf n ≤ N → nodeNormalized n = true →
      decodeJVal (encodeNode n) = .node n) := by
  intro N
  induction N using Nat.strong_induction_on with
  | _ N ih =>
      have hlist : ∀ cs : List Node, sizeOf cs ≤ N → nodeNormalizedList cs = true →
          decodeJList (encodeNodeList cs) = cs.map DVal.node := by
        intro cs hsz hwf
        match cs with
        | [] => rfl
        | c :: cs' =>
            have hszc : sizeOf c < sizeOf (c :: cs') := by
              simp only [List.cons.sizeOf_spec]
              omega
            have hszcs : sizeOf cs' < sizeOf (c :: cs') := by
              simp only [List.cons.sizeOf_spec]
              omega
            rw [nodeNormalizedList, Bool.and_eq_true] at hwf
            have hN : 1 ≤ N := by
              have : 1 ≤ sizeOf (c :: cs') := by
                simp only [List.cons.sizeOf_spec]
                omega
              omega
            rw [encodeNodeList, decodeJList,
              (ih (N - 1) (by omega)).2 c (by omega) hwf.1,
              (ih (N - 1) (by omega)).1 cs' (by omega) hwf.2,
              List.map_cons]
      refine ⟨hlist, ?_⟩
      intro n hsz hwf
      match n with
      | .mk t cs l ti nt =>
          have hszcs : sizeOf cs < sizeOf (Node.mk t cs l ti nt) := by
            simp only [Node.mk.sizeOf_spec]
            omega
          rw [nodeNormalized, Bool.and_eq_true, Bool.and_eq_true] at hwf
          obtain ⟨⟨hti, hlab⟩, hcs⟩ := hwf
          rw [decide_eq_true_eq] at hti
          have hlab' : ∀ s ∈ l, s ≠ "" := by
            intro s hs
            have := List.all_eq_true.mp hlab s hs
            rwa [decide_eq_true_eq] at this
          have hrec : decodeJList (encodeNodeList cs) = cs.map DVal.node :=
            hlist cs (by omega) hcs
          cases ti with
          | none =>
              rw [encodeNode, decodeJVal]
              simp only [List.append_nil]
              rw [decodeJFields, decodeJFields, decodeJFields, decodeJFields,
                decodeJFields]
              simp only [decodeJVal, hrec, decodeJList_map_str]
              rw [node_decode_hook]
              rw [if_pos (by simp [hasNodeKeys, lookupField, List.find?])]
              simp [lookupField, List.find?, dvalStr, dvalList, dvalTitle,
                map_dvalToNode_node, dvalLabel_map_str l hlab']
              rw [show dvalToNode ∘ DVal.node = id from funext fun x => rfl]
              exact List.map_id cs
          | some s =>
              have hs : s ≠ "" := by
                intro hc
                exact hti (by rw [hc])
              rw [encodeNode, decodeJVal]
              simp only [List.singleton_append, List.cons_append, List.nil_append]
              rw [decodeJFields, decodeJFields, decodeJFields, decodeJFields,
                decodeJFields, decodeJFields]
              simp only [decodeJVal, hrec, decodeJList_map_str]
              rw [node_decode_hook]
              rw [if_pos (by simp [hasNodeKeys, lookupField, List.find?])]
              simp [lookupField, List.find?, dvalStr, dvalList, dvalTitle,
                map_dvalToNode_node, dvalLabel_map_str l hlab', hs]
              rw [show dvalToNode ∘ DVal.node = id from funext fun x => rfl]
              exact List.map_id cs

/-- C8: encoding a constructor-normalised `Node` and decoding the result
with the hook yields the very same `Node`; the encoded object of a
title-less `Node` carries no `title` key at all; and the hook passes any
object missing one of the four mandatory keys through unchanged. -/
theorem claim_C8_serialization_round_trip :
    (∀ n : Node, nodeNormalized n = true →
      decodeJVal (encodeNode n) = .node n) ∧
    (∀ n : Node, n.title = none → "title" ∉ jObjKeys (encodeNode n)) ∧
    (∀ (fields : List (String × DVal)) (k : String),
      k ∈ (["text", "children", "label", "node_type"] : List String) →
      lookupField fields k = none → node_decode_hook fields = .obj fields) := by
  refine ⟨?_, ?_, ?_⟩
  · intro n hn
    exact (decode_encode_aux (sizeOf n)).2 n (Nat.le_refl _) hn
  · intro n hti
    match n with
    | .mk t cs l ti nt =>
        have : ti = none := hti
        subst this
        rw [encodeNode]
        simp [jObjKeys]
  · intro fields k hk hnone
    rw [node_decode_hook]
    rw [if_neg ?_]
    intro hkeys
    rw [hasNodeKeys, Bool.and_eq_true, Bool.and_eq_true, Bool.and_eq_true] at hkeys
    obtain ⟨⟨⟨h1, h2⟩, h3⟩, h4⟩ := hkeys
    simp only [List.mem_cons, List.not_mem_nil, or_false] at hk
    rcases hk with rfl | rfl | rfl | rfl
    · rw [hnone] at h1
      cases h1
    · rw [hnone] at h2
      cases h2
    · rw [hnone] at h3
      cases h3
    · rw [hnone] at h4
      cases h4

/-- The C8 witness node: one child, a title on the child, none on the
root. -/
def exC8 : Node :=
  .mk "r" [.mk "a" [] ["1", "a"] (some "T") "appendix"] ["1"] none "regtext"

set_option maxRecDepth 40000 in
/-- C8 (witness). -/
theorem claim_C8_serialization_round_trip_witness :
    decodeJVal (encodeNode exC8) = .node exC8 ∧
      "title" ∉ jObjKeys (encodeNode exC8) ∧
      node_decode_hook [("foo", DVal.str "x")] = .obj [("foo", DVal.str "x")] :=
  ⟨claim_C8_serialization_round_trip.1 exC8 (by decide),
   claim_C8_serialization_round_trip.2.1 exC8 rfl,
   claim_C8_serialization_round_trip.2.2 [("foo", DVal.str "x")] "text"
     (by decide) rfl⟩

/-! ## Claim C1: structural equality and hashing of `FrozenNode`

`__cmp__`/`__hash__` work through the repr string, so the heart of the
claim is that the repr determines — and is determined by — the four
rendered fields.  The determined-by direction is congruence; for the
determines direction a parser for the repr grammar is built below and
shown to invert `frozenRepr`, which yields injectivity of the repr up to
the fields it renders. -/

/-- `(` -/
def lparenChar : Char := Char.ofNat 40

/-- `)` -/
def rparenChar : Char := Char.ofNat 41

/-- `,` -/
def commaChar : Char := Char.ofNat 44

/-- a space -/
def spaceChar : Char := Char.ofNat 32

mutual

/-- The canonical form of a frozen node: the fields the repr does not
render (`node_type`, `tagged_text`) are blanked, recursively. -/
def normF : FrozenNode → FrozenNode
  | .mk t cs l ti _ _ => .mk t (normFList cs) l ti "" ""

/-- `normF` on a children tuple. -/
def normFList : List FrozenNode → List FrozenNode
  | [] => []
  | c :: cs => normF c :: normFList cs

end

/-- Consume an expected literal prefix. -/
def parseLit : List Char → List Char → Option (List Char)
  | [], input => some input
  | _ :: _, [] => none
  | c :: cs, d :: ds => if c = d then parseLit cs ds else none

/-- Read an escaped string body up to its closing quote. -/
def unesc : List Char → Option (List Char × List Char)
  | [] => none
  | c :: cs =>
      if c = quoteChar then some ([], cs)
      else if c = backslashChar then
        match cs with
        | [] => none
        | e :: es =>
            match unesc es with
            | some (body, rest) => some (e :: body, rest)
            | none => none
      else
        match unesc cs with
        | some (body, rest) => some (c :: body, rest)
        | none => none

/-- Read a quoted, escaped string repr. -/
def parseStr : List Char → Option (List Char × List Char)
  | [] => none
  | c :: cs => if c = quoteChar then unesc cs else none

mutual

/-- Parse one `FrozenNode` repr; the fuel bounds the nesting and is
threaded so that the recursion is structural. -/
def parseFrozen : Nat → List Char → Option (FrozenNode × List Char)
  | 0, _ => none
  | fuel + 1, input =>
      match parseLit ("FrozenNode(text=".toList) input with
      | none => none
      | some r1 =>
        match parseStr r1 with
        | none => none
        | some (t, r2) =>
          match parseLit (", children=".toList) r2 with
          | none => none
          | some r3 =>
            match parseChildren fuel r3 with
            | none => none
            | some (cs, r4) =>
              match parseLit (", label=".toList) r4 with
              | none => none
              | some r5 =>
                match parseLabelTup fuel r5 with
                | none => none
                | some (l, r6) =>
                  match parseLit (", title=".toList) r6 with
                  | none => none
                  | some r7 =>
                    match parseStr r7 with
                    | none => none
                    | some (ti, r8) =>
                      match parseLit (")".toList) r8 with
                      | none => none
                      | some r9 =>
                          some (.mk (String.mk t) cs (l.map String.mk)
                            (String.mk ti) "" "", r9)

/-- Parse a tuple of `FrozenNode` reprs. -/
def parseChildren : Nat → List Char → Option (List FrozenNode × List Char)
  | 0, _ => none
  | fuel + 1, input =>
      match input with
      | [] => none
      | c :: rest =>
          if c = lparenChar then
            match rest with
            | [] => none
            | d :: rest2 =>
                if d = rparenChar then some ([], rest2)
                else
                  match parseFrozen fuel (d :: rest2) with
                  | none => none
                  | some (x, r) =>
                      match parseTupTail fuel r with
                      | none => none
                      | some (xs, r2) => some (x :: xs, r2)
          else none

/-- Parse the remainder of a `FrozenNode` tuple after one element:
either the closing `)`, a singleton's `,)`, or `, ` and more elements. -/
def parseTupTail : Nat → List Char → Option (List FrozenNode × List Char)
  | 0, _ => none
  | fuel + 1, input =>
      match input with
      | [] => none
      | c :: rest =>
          if c = rparenChar then some ([], rest)
          else if c = commaChar then
            match rest with
            | [] => none
            | d :: rest2 =>
                if d = rparenChar then some ([], rest2)
                else if d = spaceChar then
                  match parseFrozen fuel rest2 with
                  | none => none
                  | some (x, r) =>
                      match parseTupTail fuel r with
                      | none => none
                      | some (xs, r2) => some (x :: xs, r2)
                else none
          else none

/-- Parse a tuple of string reprs (a label). -/
def parseLabelTup : Nat → List Char → Option (List (List Char) × List Char)
  | 0, _ => none
  | fuel + 1, input =>
      match input with
      | [] => none
      | c :: rest =>
          if c = lparenChar then
            match rest with
            | [] => none
            | d :: rest2 =>
                if d = rparenChar then some ([], rest2)
                else
                  match parseStr (d :: rest2) with
                  | none => none
                  | some (x, r) =>
                      match parseLabelTail fuel r with
                      | none => none
                      | some (xs, r2) => some (x :: xs, r2)
          else none

/-- Parse the remainder of a label tuple after one element. -/
def parseLabelTail : Nat → List Char → Option (List (List Char) × List Char)
  | 0, _ => none
  | fuel + 1, input =>
      match input with
      | [] => none
      | c :: rest =>
          if c = rparenChar then some ([], rest)
          else if c = commaChar then
            match rest with
            | [] => none
            | d :: rest2 =>
                if d = rparenChar then some ([], rest2)
                else if d = spaceChar then
                  match parseStr rest2 with
                  | none => none
                  | some (x, r) =>
                      match parseLabelTail fuel r with
                      | none => none
                      | some (xs, r2) => some (x :: xs, r2)
                else none
          else none

end

theorem parseLit_spec : ∀ (lit rest : List Char),
    parseLit lit (lit ++ rest) = some rest := by
  intro lit
  induction lit with
  | nil => intro rest; rfl
  | cons c cs ih =>
      intro rest
      rw [List.cons_append, parseLit, if_pos rfl]
      exact ih rest

theorem backslash_ne_quote : (backslashChar = quoteChar) = False :=
  eq_false (by decide)

theorem unesc_spec : ∀ (body r : List Char),
    unesc (pyEsc body ++ (quoteChar :: r)) = some (body, r) := by
  intro body
  induction body with
  | nil =>
      intro r
      rw [pyEsc, List.nil_append, unesc.eq_def]
      simp
  | cons c cs ih =>
      intro r
      rw [pyEsc, List.append_assoc]
      by_cases hc1 : c = backslashChar
      · subst hc1
        rw [pyEscChar, if_pos rfl]
        rw [List.cons_append, List.cons_append, List.nil_append, unesc.eq_def]
        simp [backslash_ne_quote, ih r]
      · by_cases hc2 : c = quoteChar
        · subst hc2
          rw [pyEscChar, if_neg (by decide), if_pos rfl]
          rw [List.cons_append, List.cons_append, List.nil_append, unesc.eq_def]
          simp [backslash_ne_quote, ih r]
        · rw [pyEscChar, if_neg hc1, if_neg hc2]
          rw [List.cons_append, List.nil_append, unesc.eq_def]
          simp [eq_false hc1, eq_false hc2, ih r]

theorem parseStr_spec (s : String) (r : List Char) :
    parseStr (pyStrRepr s ++ r) = some (s.toList, r) := by
  rw [pyStrRepr, List.cons_append, parseStr, if_pos rfl, List.append_assoc,
    List.singleton_append, unesc_spec]

theorem string_mk_toList (s : String) : String.mk s.toList = s := rfl

theorem toList_unit : "()".toList = [lparenChar, rparenChar] := by decide

theorem toList_sep : ", ".toList = [commaChar, spaceChar] := by decide

theorem toList_singleton_close : ",)".toList = [commaChar, rparenChar] := by decide

theorem toList_lparen : "(".toList = [lparenChar] := by decide

theorem toList_rparen : ")".toList = [rparenChar] := by decide

theorem frozenHeader_cons :
    "FrozenNode(text=".toList = Char.ofNat 70 :: "rozenNode(text=".toList := by
  decide

/-- Every `FrozenNode` repr starts with the letter `F`. -/
theorem frozenRepr_head (x : FrozenNode) :
    ∃ tail, frozenRepr x = Char.ofNat 70 :: tail := by
  match x with
  | .mk t cs l ti nt tt =>
      rw [frozenRepr, frozenHeader_cons]
      exact ⟨_, rfl⟩

theorem pyStrRepr_head (s : String) :
    pyStrRepr s = quoteChar :: (pyEsc s.toList ++ [quoteChar]) := rfl

theorem frozen_sizeOf_pos (x : FrozenNode) : 1 ≤ sizeOf x := by
  cases x
  simp only [FrozenNode.mk.sizeOf_spec]
  omega

theorem frozenList_sizeOf_pos (xs : List FrozenNode) : 1 ≤ sizeOf xs := by
  cases xs <;> simp <;> omega

theorem stringList_sizeOf_pos (l : List String) : 1 ≤ sizeOf l := by
  cases l <;> simp <;> omega

theorem comma_ne_rparen : (commaChar = rparenChar) = False := eq_false (by decide)

theorem space_ne_rparen : (spaceChar = rparenChar) = False := eq_false (by decide)

theorem fchar_ne_rparen : (Char.ofNat 70 = rparenChar) = False := eq_false (by decide)

theorem quote_ne_rparen : (quoteChar = rparenChar) = False := eq_false (by decide)

theorem map_mk_toList (l : List String) : (l.map String.toList).map String.mk = l := by
  induction l with
  | nil => rfl
  | cons s ss ih => rw [List.map_cons, List.map_cons, string_mk_toList, ih]

theorem parseLabelTail_close (F : Nat) (hF : 1 ≤ F) (r : List Char) :
    parseLabelTail F (commaChar :: rparenChar :: r) = some ([], r) := by
  obtain ⟨G, rfl⟩ : ∃ G, F = G + 1 := ⟨F - 1, by omega⟩
  simp [parseLabelTail, comma_ne_rparen]

theorem parseTupTail_close (F : Nat) (hF : 1 ≤ F) (r : List Char) :
    parseTupTail F (commaChar :: rparenChar :: r) = some ([], r) := by
  obtain ⟨G, rfl⟩ : ∃ G, F = G + 1 := ⟨F - 1, by omega⟩
  simp [parseTupTail, comma_ne_rparen]

/-- The parser family inverts the repr family: parsing a rendered value
(followed by anything) returns its canonical form and the leftover
input. -/
theorem parse_spec : ∀ F : Nat,
    (∀ (l : List String) (r : List Char), sizeOf l ≤ F →
      parseLabelTail F (tupSep (l.map pyStrRepr) ++ (rparenChar :: r))
        = some (l.map String.toList, r)) ∧
    (∀ (l : List String) (r : List Char), sizeOf l ≤ F →
      parseLabelTup F (tupRepr (l.map pyStrRepr) ++ r)
        = some (l.map String.toList, r)) ∧
    (∀ (cs : List FrozenNode) (r : List Char), sizeOf cs ≤ F →
      parseTupTail F (tupSep (frozenReprList cs) ++ (rparenChar :: r))
        = some (normFList cs, r)) ∧
    (∀ (cs : List FrozenNode) (r : List Char), sizeOf cs ≤ F →
      parseChildren F (tupRepr (frozenReprList cs) ++ r)
        = some (normFList cs, r)) ∧
    (∀ (x : FrozenNode) (r : List Char), sizeOf x ≤ F →
      parseFrozen F (frozenRepr x ++ r) = some (normF x, r)) := by
  intro F
  induction F using Nat.strong_induction_on with
  | _ F ih =>
      match F with
      | 0 =>
          refine ⟨?_, ?_, ?_, ?_, ?_⟩
          · intro l r hsz
            have := stringList_sizeOf_pos l
            omega
          · intro l r hsz
            have := stringList_sizeOf_pos l
            omega
          · intro cs r hsz
            have := frozenList_sizeOf_pos cs
            omega
          · intro cs r hsz
            have := frozenList_sizeOf_pos cs
            omega
          · intro x r hsz
            have := frozen_sizeOf_pos x
            omega
      | F + 1 =>
          have ihF := ih F (Nat.lt_succ_self F)
          refine ⟨?_, ?_, ?_, ?_, ?_⟩
          -- parseLabelTail
          · intro l r hsz
            match l with
            | [] =>
                simp [tupSep, parseLabelTail]
            | s :: ss =>
                have hss : sizeOf ss ≤ F := by
                  simp only [List.cons.sizeOf_spec] at hsz
                  have hpos : 1 ≤ sizeOf s := by
                    cases s
                    simp
                  omega
                have ihtail : ∀ rr, parseLabelTail F
                    (tupSep (ss.map pyStrRepr) ++ (rparenChar :: rr))
                      = some (ss.map String.toList, rr) :=
                  fun rr => ihF.1 ss rr hss
                rw [List.map_cons, tupSep, toList_sep]
                simp only [List.cons_append, List.nil_append, List.append_assoc]
                rw [pyStrRepr_head]
                simp only [List.cons_append, parseLabelTail, comma_ne_rparen,
                  space_ne_rparen, if_false, parseStr, eq_self_iff_true, if_true,
                  List.nil_append, List.append_assoc, List.singleton_append,
                  unesc_spec, ihtail, List.map_cons]
          -- parseLabelTup
          · intro l r hsz
            match l with
            | [] =>
                rw [List.map_nil, tupRepr, toList_unit]
                simp [parseLabelTup]
            | [s] =>
                rw [List.map_cons, List.map_nil, tupRepr, toList_lparen,
                  toList_singleton_close]
                simp only [List.cons_append, List.nil_append, List.append_assoc,
                  List.singleton_append]
                rw [pyStrRepr_head]
                simp only [List.cons_append, parseLabelTup, eq_self_iff_true,
                  if_true, quote_ne_rparen, if_false, parseStr, List.nil_append,
                  List.append_assoc, List.singleton_append, unesc_spec]
                have hF : 1 ≤ F := by
                  simp only [List.cons.sizeOf_spec, List.nil.sizeOf_spec] at hsz
                  omega
                rw [parseLabelTail_close F hF]
                rfl
            | s :: s2 :: ss =>
                have hss : sizeOf (s2 :: ss) ≤ F := by
                  simp only [List.cons.sizeOf_spec] at hsz ⊢
                  have hpos : 1 ≤ sizeOf s := by
                    cases s
                    simp
                  omega
                have ihtail : ∀ rr, parseLabelTail F
                    (tupSep ((s2 :: ss).map pyStrRepr) ++ (rparenChar :: rr))
                      = some ((s2 :: ss).map String.toList, rr) :=
                  fun rr => ihF.1 (s2 :: ss) rr hss
                simp only [List.map_cons] at ihtail
                rw [List.map_cons, tupRepr, toList_lparen, toList_rparen]
                simp only [List.cons_append, List.nil_append, List.append_assoc,
                  List.singleton_append]
                rw [pyStrRepr_head]
                simp only [List.cons_append, parseLabelTup, eq_self_iff_true,
                  if_true, quote_ne_rparen, if_false, parseStr, List.nil_append,
                  List.append_assoc, List.singleton_append, unesc_spec, ihtail,
                  List.map_cons]
                simp
          -- parseTupTail
          · intro cs r hsz
            match cs with
            | [] =>
                simp [frozenReprList, tupSep, parseTupTail, normFList]
            | x :: xs =>
                have hx : sizeOf x ≤ F ∧ sizeOf xs ≤ F := by
                  simp only [List.cons.sizeOf_spec] at hsz
                  have h1 := frozen_sizeOf_pos x
                  have h2 := frozenList_sizeOf_pos xs
                  omega
                have ihx : ∀ rr, parseFrozen F (frozenRepr x ++ rr)
                    = some (normF x, rr) := fun rr => ihF.2.2.2.2 x rr hx.1
                have ihxs : ∀ rr, parseTupTail F
                    (tupSep (frozenReprList xs) ++ (rparenChar :: rr))
                      = some (normFList xs, rr) := fun rr => ihF.2.2.1 xs rr hx.2
                obtain ⟨tail, htail⟩ := frozenRepr_head x
                have ihx2 : ∀ rr, parseFrozen F (Char.ofNat 70 :: (tail ++ rr))
                    = some (normF x, rr) := by
                  intro rr
                  have := ihx rr
                  rwa [htail, List.cons_append] at this
                rw [frozenReprList, tupSep, toList_sep, htail]
                simp only [List.cons_append, List.nil_append, List.append_assoc]
                simp only [parseTupTail, comma_ne_rparen, space_ne_rparen,
                  fchar_ne_rparen, if_false, eq_self_iff_true, if_true,
                  List.nil_append, ihx2, ihxs, normFList]
          -- parseChildren
          · intro cs r hsz
            match cs with
            | [] =>
                rw [frozenReprList, tupRepr, toList_unit]
                simp [parseChildren, normFList]
            | [x] =>
                have hx : sizeOf x ≤ F := by
                  simp only [List.cons.sizeOf_spec] at hsz
                  omega
                have ihx : ∀ rr, parseFrozen F (frozenRepr x ++ rr)
                    = some (normF x, rr) := fun rr => ihF.2.2.2.2 x rr hx
                obtain ⟨tail, htail⟩ := frozenRepr_head x
                have ihx2 : ∀ rr, parseFrozen F (Char.ofNat 70 :: (tail ++ rr))
                    = some (normF x, rr) := by
                  intro rr
                  have := ihx rr
                  rwa [htail, List.cons_append] at this
                rw [frozenReprList, frozenReprList, tupRepr, toList_lparen,
                  toList_singleton_close, htail]
                simp only [List.cons_append, List.nil_append, List.append_assoc,
                  List.singleton_append]
                simp only [parseChildren, eq_self_iff_true, if_true,
                  fchar_ne_rparen, if_false, List.nil_append, ihx2]
                have hF : 1 ≤ F := by
                  simp only [List.cons.sizeOf_spec] at hsz
                  have := frozen_sizeOf_pos x
                  omega
                rw [parseTupTail_close F hF]
                simp [normFList]
            | x :: x2 :: xs =>
                have hx : sizeOf x ≤ F ∧ sizeOf (x2 :: xs) ≤ F := by
                  simp only [List.cons.sizeOf_spec] at hsz ⊢
                  have h1 := frozen_sizeOf_pos x
                  have h2 := frozen_sizeOf_pos x2
                  have h3 := frozenList_sizeOf_pos xs
                  omega
                have ihx : ∀ rr, parseFrozen F (frozenRepr x ++ rr)
                    = some (normF x, rr) := fun rr => ihF.2.2.2.2 x rr hx.1
                have ihxs : ∀ rr, parseTupTail F
                    (tupSep (frozenReprList (x2 :: xs)) ++ (rparenChar :: rr))
                      = some (normFList (x2 :: xs), rr) :=
                  fun rr => ihF.2.2.1 (x2 :: xs) rr hx.2
                obtain ⟨tail, htail⟩ := frozenRepr_head x
                have ihx2 : ∀ rr, parseFrozen F (Char.ofNat 70 :: (tail ++ rr))
                    = some (normF x, rr) := by
                  intro rr
                  have := ihx rr
                  rwa [htail, List.cons_append] at this
                rw [frozenReprList, tupRepr, toList_lparen, toList_rparen, htail]
                simp only [List.cons_append, List.nil_append, List.append_assoc,
                  List.singleton_append]
                simp only [parseChildren, eq_self_iff_true, if_true,
                  fchar_ne_rparen, if_false, List.nil_append, ihx2, ihxs,
                  normFList]
                simp [frozenReprList]
          -- parseFrozen
          · intro x r hsz
            match x with
            | .mk t cs l ti nt tt =>
                have hcs : sizeOf cs ≤ F := by
                  simp only [FrozenNode.mk.sizeOf_spec] at hsz
                  have h1 : 1 ≤ sizeOf t := by
                    cases t
                    simp
                  omega
                have hl : sizeOf l ≤ F := by
                  simp only [FrozenNode.mk.sizeOf_spec] at hsz
                  have h1 : 1 ≤ sizeOf t := by
                    cases t
                    simp
                  have h2 := frozenList_sizeOf_pos cs
                  omega
                have ihch : ∀ rr, parseChildren F
                    (tupRepr (frozenReprList cs) ++ rr)
                      = some (normFList cs, rr) := fun rr => ihF.2.2.2.1 cs rr hcs
                have ihlab : ∀ rr, parseLabelTup F
                    (tupRepr (l.map pyStrRepr) ++ rr)
                      = some (l.map String.toList, rr) := fun rr => ihF.2.1 l rr hl
                rw [frozenRepr, normF]
                simp only [List.append_assoc]
                simp only [parseFrozen, parseLit_spec, parseStr_spec,
                  List.nil_append, ihch, ihlab]
                simp only [map_mk_toList, string_mk_toList]

/-- The repr determines the rendered fields: equal reprs mean equal
canonical forms. -/
theorem frozenRepr_inj {a b : FrozenNode} (h : frozenRepr a = frozenRepr b) :
    normF a = normF b := by
  have ha := (parse_spec (sizeOf a + sizeOf b)).2.2.2.2 a [] (by omega)
  have hb := (parse_spec (sizeOf a + sizeOf b)).2.2.2.2 b [] (by omega)
  rw [h] at ha
  rw [ha] at hb
  simp only [Option.some.injEq, Prod.mk.injEq] at hb
  exact hb.1

/-- Blanking the unrendered fields does not change the repr. -/
theorem normF_repr : ∀ N : Nat,
    (∀ cs : List FrozenNode, sizeOf cs ≤ N →
      frozenReprList (normFList cs) = frozenReprList cs) ∧
    (∀ x : FrozenNode, sizeOf x ≤ N → frozenRepr (normF x) = frozenRepr x) := by
  intro N
  induction N using Nat.strong_induction_on with
  | _ N ih =>
      have hlist : ∀ cs : List FrozenNode, sizeOf cs ≤ N →
          frozenReprList (normFList cs) = frozenReprList cs := by
        intro cs hsz
        match cs with
        | [] => rfl
        | c :: cc =>
            have hc : sizeOf c < sizeOf (c :: cc) := by
              simp only [List.cons.sizeOf_spec]
              omega
            have hcc : sizeOf cc < sizeOf (c :: cc) := by
              simp only [List.cons.sizeOf_spec]
              omega
            have hN : 1 ≤ N := by
              have := frozen_sizeOf_pos c
              simp only [List.cons.sizeOf_spec] at hsz
              omega
            rw [normFList, frozenReprList, frozenReprList,
              (ih (N - 1) (by omega)).2 c (by omega),
              (ih (N - 1) (by omega)).1 cc (by omega)]
      refine ⟨hlist, ?_⟩
      intro x hsz
      match x with
      | .mk t cs l ti nt tt =>
          have hcs : sizeOf cs < sizeOf (FrozenNode.mk t cs l ti nt tt) := by
            simp only [FrozenNode.mk.sizeOf_spec]
            omega
          rw [normF, frozenRepr, frozenRepr, hlist cs (by omega)]

/-- On normalised mutable trees, equal canonical frozen forms mean
field-identical trees up to `node_type`, and conversely. -/
theorem normF_fromNode_eq_iff : ∀ N : Nat,
    (∀ cs1 cs2 : List Node, sizeOf cs1 ≤ N →
      nodeNormalizedList cs1 = true → nodeNormalizedList cs2 = true →
      (normFList (from_node_list cs1) = normFList (from_node_list cs2) ↔
        nodeEqvNoTypeList cs1 cs2 = true)) ∧
    (∀ n1 n2 : Node, sizeOf n1 ≤ N →
      nodeNormalized n1 = true → nodeNormalized n2 = true →
      (normF (from_node n1) = normF (from_node n2) ↔
        nodeEqvNoType n1 n2 = true)) := by
  intro N
  induction N using Nat.strong_induction_on with
  | _ N ih =>
      have hlist : ∀ cs1 cs2 : List Node, sizeOf cs1 ≤ N →
          nodeNormalizedList cs1 = true → nodeNormalizedList cs2 = true →
          (normFList (from_node_list cs1) = normFList (from_node_list cs2) ↔
            nodeEqvNoTypeList cs1 cs2 = true) := by
        intro cs1 cs2 hsz hw1 hw2
        match cs1, cs2 with
        | [], [] => simp [from_node_list, normFList, nodeEqvNoTypeList]
        | [], c2 :: cc2 => simp [from_node_list, normFList, nodeEqvNoTypeList]
        | c1 :: cc1, [] => simp [from_node_list, normFList, nodeEqvNoTypeList]
        | c1 :: cc1, c2 :: cc2 =>
            have hN : 1 ≤ N := by
              have hp : 1 ≤ sizeOf c1 := by
                cases c1
                simp only [Node.mk.sizeOf_spec]
                omega
              simp only [List.cons.sizeOf_spec] at hsz
              omega
            simp only [List.cons.sizeOf_spec] at hsz
            rw [nodeNormalizedList, Bool.and_eq_true] at hw1 hw2
            rw [from_node_list, from_node_list, normFList, normFList,
              nodeEqvNoTypeList, Bool.and_eq_true, List.cons.injEq]
            exact and_congr
              ((ih (N - 1) (by omega)).2 c1 c2 (by omega) hw1.1 hw2.1)
              ((ih (N - 1) (by omega)).1 cc1 cc2 (by omega) hw1.2 hw2.2)
      refine ⟨hlist, ?_⟩
      intro n1 n2 hsz hw1 hw2
      match n1, n2 with
      | .mk t1 cs1 l1 ti1 nt1, .mk t2 cs2 l2 ti2 nt2 =>
          have hszcs : sizeOf cs1 < sizeOf (Node.mk t1 cs1 l1 ti1 nt1) := by
            simp only [Node.mk.sizeOf_spec]
            omega
          rw [nodeNormalized, Bool.and_eq_true, Bool.and_eq_true] at hw1 hw2
          obtain ⟨⟨hti1, -⟩, hcs1⟩ := hw1
          obtain ⟨⟨hti2, -⟩, hcs2⟩ := hw2
          rw [decide_eq_true_eq] at hti1 hti2
          have hchildren := hlist cs1 cs2 (by omega) hcs1 hcs2
          have htitle : (ti1.getD "" = ti2.getD "") ↔ ti1 = ti2 := by
            cases ti1 with
            | none =>
                cases ti2 with
                | none => simp
                | some s2 =>
                    simp only [Option.getD_none, Option.getD_some]
                    constructor
                    · intro h
                      exact absurd (by rw [← h]) hti2
                    · intro h
                      cases h
            | some s1 =>
                cases ti2 with
                | none =>
                    simp only [Option.getD_none, Option.getD_some]
                    constructor
                    · intro h
                      exact absurd (by rw [h]) hti1
                    · intro h
                      cases h
                | some s2 => simp
          rw [from_node, from_node, normF, normF, nodeEqvNoType]
          rw [FrozenNode.mk.injEq]
          simp only [Bool.and_eq_true, beq_iff_eq, decide_eq_true_eq,
            and_true, true_and]
          rw [hchildren, htitle]
          tauto

set_option maxRecDepth 4000 in
/-- C1: two frozen trees built by `from_node` are `__cmp__`-equal, and
hash equally, exactly when the underlying mutable trees agree on `text`,
`label`, `title` and, recursively, `children` — the fields the canonical
representation renders.  In particular field-identical trees freeze to
equal, equally-hashing values, and a single change to the text, a child,
a label segment or the title anywhere breaks both equality and hash
equality. -/
theorem claim_C1_frozen_structural_eq (n1 n2 : Node)
    (h1 : nodeNormalized n1 = true) (h2 : nodeNormalized n2 = true) :
    (frozenEq (from_node n1) (from_node n2) = true ↔ nodeEqvNoType n1 n2 = true) ∧
      (frozenHash (from_node n1) = frozenHash (from_node n2) ↔
        nodeEqvNoType n1 n2 = true) := by
  have key : frozenRepr (from_node n1) = frozenRepr (from_node n2) ↔
      nodeEqvNoType n1 n2 = true := by
    constructor
    · intro h
      exact ((normF_fromNode_eq_iff (sizeOf n1)).2 n1 n2 (Nat.le_refl _)
        h1 h2).mp (frozenRepr_inj h)
    · intro h
      have hn : normF (from_node n1) = normF (from_node n2) :=
        ((normF_fromNode_eq_iff (sizeOf n1)).2 n1 n2 (Nat.le_refl _)
          h1 h2).mpr h
      calc frozenRepr (from_node n1)
          = frozenRepr (normF (from_node n1)) :=
            ((normF_repr (sizeOf (from_node n1))).2 _ (Nat.le_refl _)).symm
        _ = frozenRepr (normF (from_node n2)) := by rw [hn]
        _ = frozenRepr (from_node n2) :=
            (normF_repr (sizeOf (from_node n2))).2 _ (Nat.le_refl _)
  constructor
  · rw [frozenEq, decide_eq_true_eq]
    exact key
  · rw [frozenHash, frozenHash]
    exact key

/-- First C1 witness tree. -/
def exC1a : Node :=
  .mk "x" [.mk "c" [] ["1", "a"] none "regtext"] ["1"] (some "T") "regtext"

/-- Second C1 witness tree: same rendered fields, different `node_type`. -/
def exC1b : Node :=
  .mk "x" [.mk "c" [] ["1", "a"] none "regtext"] ["1"] (some "T") "subpart"

set_option maxRecDepth 40000 in
/-- C1 (witness). -/
theorem claim_C1_frozen_structural_eq_witness :
    (frozenEq (from_node exC1a) (from_node exC1b) = true ↔
      nodeEqvNoType exC1a exC1b = true) ∧
      (frozenHash (from_node exC1a) = frozenHash (from_node exC1b) ↔
        nodeEqvNoType exC1a exC1b = true) :=
  claim_C1_frozen_structural_eq exC1a exC1b (by decide) (by decide)

/-! ## Claim C2: the flatten/treeify round trip -/

theorem flatten_eq (t : String) (cs : List Node) (l : List String)
    (ti : Option String) (nt : String) :
    flatten (.mk t cs l ti nt) = stripNode (.mk t cs l ti nt) :: flattenList cs := by
  rw [flatten]
  rfl

theorem flatten_eq' (n : Node) :
    flatten n = stripNode n :: flattenList n.children := by
  cases n
  exact flatten_eq _ _ _ _ _

theorem flattenList_append : ∀ l1 l2 : List Node,
    flattenList (l1 ++ l2) = flattenList l1 ++ flattenList l2 := by
  intro l1 l2
  induction l1 with
  | nil => rfl
  | cons x xs ih => rw [List.cons_append, flattenList, flattenList, ih,
      List.append_assoc]

theorem mem_flattenList {d : Node} : ∀ {l : List Node},
    d ∈ flattenList l ↔ ∃ x ∈ l, d ∈ flatten x := by
  intro l
  induction l with
  | nil => simp [flattenList]
  | cons x xs ih =>
      rw [flattenList, List.mem_append, ih]
      constructor
      · rintro (h | ⟨y, hy, hd⟩)
        · exact ⟨x, List.mem_cons_self x xs, h⟩
        · exact ⟨y, List.mem_cons_of_mem x hy, hd⟩
      · rintro ⟨y, hy, hd⟩
        rcases List.mem_cons.mp hy with rfl | hy2
        · exact Or.inl hd
        · exact Or.inr ⟨y, hy2, hd⟩

theorem mem_wellGroupedList : ∀ {ts : List Node}, wellGroupedList ts = true →
    ∀ t ∈ ts, wellGrouped t = true := by
  intro ts
  induction ts with
  | nil => intro _ t ht; cases ht
  | cons x xs ih =>
      intro h t ht
      rw [wellGroupedList, Bool.and_eq_true] at h
      rcases List.mem_cons.mp ht with rfl | ht'
      · exact h.1
      · exact ih h.2 t ht'

theorem stripNode_label (n : Node) : (stripNode n).label = n.label := rfl

/-- Unpacking of the `wellGrouped` conjunction. -/
theorem wellGrouped_parts {t : Node} (h : wellGrouped t = true) :
    t.label ≠ [] ∧
      (∀ c ∈ t.children, t.label.length < c.label.length) ∧
      (∀ c1 ∈ t.children, ∀ c2 ∈ t.children,
        c1.label.length = c2.label.length) ∧
      (∀ d ∈ flatten t, is_child t.label d.label = true) ∧
      (∀ c1 ∈ t.children, ∀ c2 ∈ t.children, c1.label = c2.label ∨
        ∀ d ∈ flatten c2, is_child c1.label d.label = false) ∧
      ((flatten t).map Node.label).Nodup ∧
      wellGroupedList t.children = true := by
  match t with
  | .mk t cs l ti nt =>
      rw [wellGrouped.eq_def] at h
      simp only [Bool.and_eq_true, Bool.or_eq_true, decide_eq_true_eq,
        List.all_eq_true] at h
      obtain ⟨⟨⟨⟨⟨h1, h2⟩, h3⟩, h4⟩, h5⟩, h6⟩ := h
      simp only [Node.children_mk, Node.label_mk]
      refine ⟨h1, ?_, ?_, ?_, ?_, h5, h6⟩
      · intro c hc
        match cs, hc with
        | c0 :: cs2, hc =>
            simp only [Bool.and_eq_true, decide_eq_true_eq,
              List.all_eq_true] at h2
            have := h2.2 c hc
            omega
      · intro c1 hc1 c2 hc2
        match cs, hc1, hc2 with
        | c0 :: cs2, hc1, hc2 =>
            simp only [Bool.and_eq_true, decide_eq_true_eq,
              List.all_eq_true] at h2
            have e1 := h2.2 c1 hc1
            have e2 := h2.2 c2 hc2
            omega
      · intro d hd
        exact h3 d hd
      · intro c1 hc1 c2 hc2
        rcases h4 c1 hc1 c2 hc2 with hl | hr
        · exact Or.inl hl
        · right
          intro d hd
          have := hr d hd
          rwa [Bool.not_eq_true'] at this

/-- Labels never get shorter down a well-grouped subtree. -/
theorem wg_desc_le : ∀ N : Nat, ∀ t : Node, sizeOf t ≤ N →
    wellGrouped t = true →
    ∀ d ∈ flatten t, t.label.length ≤ d.label.length := by
  intro N
  induction N using Nat.strong_induction_on with
  | _ N ih =>
      intro t hsz hwg d hd
      obtain ⟨-, hlen, -, -, -, -, hrec⟩ := wellGrouped_parts hwg
      rw [flatten_eq'] at hd
      rcases List.mem_cons.mp hd with rfl | hd'
      · rw [stripNode_label]
      · obtain ⟨c, hc, hdc⟩ := mem_flattenList.mp hd'
        have hszc : sizeOf c < sizeOf t := by
          match t with
          | .mk tt cs ll ti nt =>
              have := List.sizeOf_lt_of_mem (by simpa using hc)
              simp only [Node.mk.sizeOf_spec]
              omega
        have := ih (N - 1) (by omega) c (by omega)
          (mem_wellGroupedList hrec c hc) d hdc
        have := hlen c hc
        omega

/-- Labels strictly grow from a node to its strict descendants. -/
theorem wg_desc_lt {t : Node} (hwg : wellGrouped t = true) :
    ∀ d ∈ flattenList t.children, t.label.length < d.label.length := by
  intro d hd
  obtain ⟨-, hlen, -, -, -, -, hrec⟩ := wellGrouped_parts hwg
  obtain ⟨c, hc, hdc⟩ := mem_flattenList.mp hd
  have h1 := wg_desc_le (sizeOf c) c (Nat.le_refl _)
    (mem_wellGroupedList hrec c hc) d hdc
  have h2 := hlen c hc
  omega

/-- The conditions under which `treeify` reconstructs a forest of
well-grouped sibling trees from its flattening. -/
def ForestOK (ts : List Node) : Prop :=
  wellGroupedList ts = true ∧
    (∀ t1 ∈ ts, ∀ t2 ∈ ts, t1.label.length = t2.label.length) ∧
    ((flattenList ts).map Node.label).Nodup ∧
    (∀ t1 ∈ ts, ∀ t2 ∈ ts, t1.label ≠ t2.label →
      ∀ d ∈ flatten t2, is_child t1.label d.label = false)

theorem forestOK_children {t : Node} (hwg : wellGrouped t = true) :
    ForestOK t.children := by
  obtain ⟨-, -, hlen, -, hsib, hnodup, hrec⟩ := wellGrouped_parts hwg
  refine ⟨hrec, hlen, ?_, ?_⟩
  · rw [flatten_eq'] at hnodup
    rw [List.map_cons] at hnodup
    exact (List.nodup_cons.mp hnodup).2
  · intro t1 ht1 t2 ht2 hne d hd
    rcases hsib t1 ht1 t2 ht2 with h | h
    · exact absurd h hne
    · exact h d hd

theorem forestOK_single {t : Node} (hwg : wellGrouped t = true) :
    ForestOK [t] := by
  obtain ⟨-, -, -, -, -, hnodup, -⟩ := wellGrouped_parts hwg
  refine ⟨?_, ?_, ?_, ?_⟩
  · rw [wellGroupedList, wellGroupedList, Bool.and_eq_true]
    exact ⟨hwg, rfl⟩
  · intro t1 ht1 t2 ht2
    rcases List.mem_singleton.mp ht1 with rfl
    rcases List.mem_singleton.mp ht2 with rfl
    rfl
  · rw [flattenList, flattenList, List.append_nil]
    exact hnodup
  · intro t1 ht1 t2 ht2 hne
    rcases List.mem_singleton.mp ht1 with rfl
    rcases List.mem_singleton.mp ht2 with rfl
    exact absurd rfl hne

theorem withMinAux_spec : ∀ (rest : List Node) (m : Nat) (acc : List Node),
    (∀ x ∈ rest, m ≤ x.label.length) →
    withMinAux m acc rest
      = acc ++ rest.filter (fun x => decide (x.label.length = m)) := by
  intro rest
  induction rest with
  | nil =>
      intro m acc _
      rw [withMinAux, List.filter_nil, List.append_nil]
  | cons n ns ih =>
      intro m acc hge
      rw [withMinAux, List.filter_cons]
      by_cases hn : n.label.length = m
      · rw [if_pos hn, if_pos (by rw [hn]; simp),
          ih m (acc ++ [n]) (fun x hx => hge x (List.mem_cons_of_mem n hx)),
          List.append_assoc, List.singleton_append]
      · have hgt : ¬(n.label.length < m) := by
          have := hge n (List.mem_cons_self n ns)
          omega
        rw [if_neg hn, if_neg hgt, if_neg (by simpa using hn),
          ih m acc (fun x hx => hge x (List.mem_cons_of_mem n hx))]

theorem filter_flattenList_min {m : Nat} : ∀ {ts : List Node},
    wellGroupedList ts = true → (∀ t ∈ ts, t.label.length = m) →
    (flattenList ts).filter (fun x => decide (x.label.length = m))
      = ts.map stripNode := by
  intro ts
  induction ts with
  | nil => intro _ _; rfl
  | cons t ts2 ih =>
      intro hwg hlen
      rw [wellGroupedList, Bool.and_eq_true] at hwg
      rw [flattenList, List.filter_append, flatten_eq', List.filter_cons,
        if_pos (by simp [stripNode_label, hlen t (List.mem_cons_self t ts2)]),
        List.map_cons]
      have hsub : (flattenList t.children).filter
          (fun x => decide (x.label.length = m)) = [] := by
        rw [List.filter_eq_nil_iff]
        intro d hd
        have h1 := wg_desc_lt hwg.1 d hd
        have h2 := hlen t (List.mem_cons_self t ts2)
        simp only [decide_eq_true_eq]
        omega
      rw [hsub, ih hwg.2 (fun x hx => hlen x (List.mem_cons_of_mem t hx))]
      rfl

theorem withMin_flattenList {ts : List Node} (hne : ts ≠ [])
    (hwg : wellGroupedList ts = true)
    (hcommon : ∀ t1 ∈ ts, ∀ t2 ∈ ts, t1.label.length = t2.label.length) :
    withMin (flattenList ts) = ts.map stripNode := by
  match ts with
  | t :: ts2 =>
      have hshape : flattenList (t :: ts2)
          = stripNode t :: (flattenList t.children ++ flattenList ts2) := by
        rw [flattenList, flatten_eq', List.cons_append]
      rw [hshape, withMin, ← hshape]
      rw [stripNode_label]
      have hall : ∀ x ∈ flattenList (t :: ts2),
          t.label.length ≤ x.label.length := by
        intro x hx
        obtain ⟨y, hy, hxy⟩ := mem_flattenList.mp hx
        have h1 := wg_desc_le (sizeOf y) y (Nat.le_refl _)
          (mem_wellGroupedList hwg y hy) x hxy
        have h2 := hcommon t (List.mem_cons_self t ts2) y hy
        omega
      rw [withMinAux_spec _ _ _ hall, List.nil_append]
      exact filter_flattenList_min hwg
        (fun x hx => (hcommon x hx t (List.mem_cons_self t ts2)))

/-- The root labels form a sublist of all labels of the flattening. -/
theorem roots_labels_sublist : ∀ ts : List Node,
    (ts.map Node.label).Sublist ((flattenList ts).map Node.label) := by
  intro ts
  induction ts with
  | nil => exact List.Sublist.refl _
  | cons t ts2 ih =>
      rw [List.map_cons, flattenList, flatten_eq', List.cons_append,
        List.map_cons, stripNode_label, List.map_append]
      exact List.Sublist.cons₂ _
        (ih.trans (List.sublist_append_right _ _))

theorem mergeDuplicates_map_strip {ts : List Node}
    (hnodup : ((flattenList ts).map Node.label).Nodup) :
    merge_duplicates (ts.map stripNode) = ts.map stripNode := by
  apply mergeDuplicates_eq_of_none
  rw [lastDupPair_eq_none_iff]
  have h1 : (ts.map Node.label).Nodup := ((roots_labels_sublist ts).nodup hnodup)
  rw [List.pairwise_map]
  have := (List.pairwise_map (R := (· ≠ ·)) (f := Node.label) (l := ts)).mp h1
  exact this.imp (fun h => by simpa [stripNode_label] using h)

/-- The node filter of `treeify` picks, out of the flattening of a
sibling forest, exactly the flattened strict descendants of the root at
hand. -/
theorem selected_eq {ts : List Node} {t : Node} (hmem : t ∈ ts)
    (hok : ForestOK ts) :
    selectedDescendants t.label (flattenList ts) = flattenList t.children := by
  obtain ⟨hwg, -, hnodup, hcross⟩ := hok
  obtain ⟨pre, post, heq⟩ := List.append_of_mem hmem
  have hwgt : wellGrouped t = true := mem_wellGroupedList hwg t hmem
  have hsplit : flattenList ts
      = flattenList pre ++ (flatten t ++ flattenList post) := by
    rw [heq, flattenList_append, flattenList]
  -- labels of other roots differ from t's
  have hotherlab : ∀ u ∈ ts, u ∈ pre ∨ u ∈ post → u.label ≠ t.label := by
    intro u hu hupre hlab
    rw [hsplit, List.map_append, List.map_append] at hnodup
    rw [List.nodup_append] at hnodup
    have htmem : t.label ∈ (flatten t).map Node.label := by
      rw [flatten_eq', List.map_cons, stripNode_label]
      exact List.mem_cons_self _ _
    have hstripmem : stripNode u ∈ flatten u := by
      rw [flatten_eq']
      exact List.mem_cons_self _ _
    rcases hupre with hp | hp
    · have humem : u.label ∈ (flattenList pre).map Node.label := by
        refine List.mem_map.mpr ⟨stripNode u, ?_, stripNode_label u⟩
        exact mem_flattenList.mpr ⟨u, hp, hstripmem⟩
      have := hnodup.2.2 humem
      rw [hlab] at this
      exact this (List.mem_append.mpr (Or.inl htmem))
    · have hmid := hnodup.2.1
      rw [List.nodup_append] at hmid
      have humem : u.label ∈ (flattenList post).map Node.label := by
        refine List.mem_map.mpr ⟨stripNode u, ?_, stripNode_label u⟩
        exact mem_flattenList.mpr ⟨u, hp, hstripmem⟩
      have := hmid.2.2 htmem
      rw [← hlab] at this
      exact this humem
  -- the local filter predicate
  rw [selectedDescendants, hsplit, List.filter_append, List.filter_append]
  have hblock : ∀ u ∈ ts, u.label ≠ t.label →
      (flatten u).filter
        (fun n => decide (n.label ≠ t.label) && is_child t.label n.label)
          = [] := by
    intro u hu hul
    rw [List.filter_eq_nil_iff]
    intro d hd
    have := hcross t hmem u hu (fun hh => hul hh.symm) d hd
    simp [this]
  have hpre : (flattenList pre).filter
      (fun n => decide (n.label ≠ t.label) && is_child t.label n.label) = [] := by
    rw [List.filter_eq_nil_iff]
    intro d hd
    obtain ⟨u, hu, hdu⟩ := mem_flattenList.mp hd
    have humem : u ∈ ts := heq ▸ List.mem_append.mpr (Or.inl hu)
    have := hblock u humem (hotherlab u humem (Or.inl hu))
    rw [List.filter_eq_nil_iff] at this
    exact this d hdu
  have hpost : (flattenList post).filter
      (fun n => decide (n.label ≠ t.label) && is_child t.label n.label) = [] := by
    rw [List.filter_eq_nil_iff]
    intro d hd
    obtain ⟨u, hu, hdu⟩ := mem_flattenList.mp hd
    have humem : u ∈ ts := heq ▸ List.mem_append.mpr
      (Or.inr (List.mem_cons_of_mem t hu))
    have := hblock u humem (hotherlab u humem (Or.inr hu))
    rw [List.filter_eq_nil_iff] at this
    exact this d hdu
  rw [hpre, hpost, List.nil_append, List.append_nil]
  -- the block of t itself
  obtain ⟨-, -, -, hCdesc, -, hlocnodup, -⟩ := wellGrouped_parts hwgt
  rw [flatten_eq', List.filter_cons]
  have hstrip : (decide ((stripNode t).label ≠ t.label)
      && is_child t.label (stripNode t).label) = false := by
    simp [stripNode_label]
  rw [hstrip, if_neg (by simp)]
  rw [List.filter_eq_self]
  intro d hd
  have hchild : is_child t.label d.label = true := by
    have := hCdesc d (by rw [flatten_eq']; exact List.mem_cons_of_mem _ hd)
    exact this
  have hdlab : d.label ≠ t.label := by
    rw [flatten_eq', List.map_cons, stripNode_label, List.nodup_cons]
      at hlocnodup
    intro hcontra
    exact hlocnodup.1 (hcontra ▸ List.mem_map.mpr ⟨d, hd, rfl⟩)
  simp [hdlab, hchild]

theorem treeifyFuel_cons_eq (G : Nat) (nodes : List Node) (h : nodes ≠ []) :
    treeifyFuel (G + 1) nodes
      = treeifyRootsFuel G nodes (merge_duplicates (withMin nodes)) := by
  match nodes with
  | [] => exact absurd rfl h
  | n :: rest => simp [treeifyFuel]

/-- The master round trip: `treeify` rebuilds any well-grouped sibling
forest from its pre-order flattening, given enough fuel. -/
theorem roundtrip_aux : ∀ F : Nat,
    (∀ ts : List Node, ForestOK ts → (flattenList ts).length < F →
      treeifyFuel F (flattenList ts) = .ok ts) ∧
    (∀ ts ts2 : List Node, ForestOK ts → (flattenList ts).length ≤ F →
      (∀ x ∈ ts2, x ∈ ts) →
      treeifyRootsFuel F (flattenList ts) (ts2.map stripNode) = .ok ts2) := by
  intro F
  induction F using Nat.strong_induction_on with
  | _ F ih =>
      have hFuel : ∀ ts : List Node, ForestOK ts →
          (flattenList ts).length < F →
          treeifyFuel F (flattenList ts) = .ok ts := by
        intro ts hok hlen
        match F, ts with
        | 0, ts => exact absurd hlen (by omega)
        | G + 1, [] => simp [flattenList, treeifyFuel]
        | G + 1, t :: ts2 =>
            have hne : flattenList (t :: ts2) ≠ [] := by
              rw [flattenList, flatten_eq', List.cons_append]
              exact List.cons_ne_nil _ _
            rw [treeifyFuel_cons_eq G _ hne,
              withMin_flattenList (List.cons_ne_nil t ts2) hok.1 hok.2.1,
              mergeDuplicates_map_strip hok.2.2.1]
            exact (ih G (Nat.lt_succ_self G)).2 (t :: ts2) (t :: ts2) hok
              (by omega) (fun x hx => hx)
      refine ⟨hFuel, ?_⟩
      intro ts ts2 hok hlen
      induction ts2 with
      | nil =>
          intro _
          simp [treeifyRootsFuel]
      | cons t ts3 ihr =>
          intro hsub
          have htmem : t ∈ ts := hsub t (List.mem_cons_self t ts3)
          have hwgt := mem_wellGroupedList hok.1 t htmem
          have hlabne : t.label ≠ [] := (wellGrouped_parts hwgt).1
          obtain ⟨l0, hl0⟩ : ∃ l0, (stripNode t).label.getLast? = some l0 := by
            rw [stripNode_label]
            cases hgl : t.label.getLast? with
            | none => exact absurd (List.getLast?_eq_none_iff.mp hgl) hlabne
            | some l0 => exact ⟨l0, rfl⟩
          have hsel : selectedDescendants (stripNode t).label (flattenList ts)
              = flattenList t.children := by
            rw [stripNode_label]
            exact selected_eq htmem hok
          have hle : (flatten t).length ≤ (flattenList ts).length := by
            obtain ⟨pre, post, heq⟩ := List.append_of_mem htmem
            rw [heq, flattenList_append, flattenList, List.length_append,
              List.length_append]
            omega
          have hflen : (flattenList t.children).length < F := by
            rw [flatten_eq'] at hle
            simp only [List.length_cons] at hle
            omega
          have hrec : treeifyFuel F (flattenList t.children) = .ok t.children :=
            hFuel t.children (forestOK_children hwgt) hflen
          have hrest : treeifyRootsFuel F (flattenList ts) (ts3.map stripNode)
              = .ok ts3 := ihr (fun x hx => hsub x (List.mem_cons_of_mem t hx))
          rw [List.map_cons, treeifyRootsFuel]
          simp only [hl0, hsel, hrec, hrest]
          have hback : (stripNode t).withChildren
              ((stripNode t).children ++ t.children) = t := by
            cases t
            rfl
          rw [hback]

/-- C2: flattening a well-grouped tree in pre-order into its full flat
fragment list and applying `treeify` reconstructs exactly the original
tree. -/
theorem claim_C2_treeify_round_trip (t : Node) (h : wellGrouped t = true) :
    treeify (flatten t) = .ok [t] := by
  have hok : ForestOK [t] := forestOK_single h
  have hft : flattenList [t] = flatten t := by
    rw [flattenList, flattenList, List.append_nil]
  have hmain := (roundtrip_aux ((flatten t).length + 1)).1 [t] hok
    (by rw [hft]; omega)
  rw [hft] at hmain
  rw [treeify]
  exact hmain

/-- The C2 witness tree: a root with two children and one grandchild,
labels grouped by prefix. -/
def exC2 : Node :=
  .mk "r" [.mk "a" [.mk "a1" [] ["1", "a", "1"] none "regtext"]
             ["1", "a"] none "regtext",
           .mk "b" [] ["1", "b"] (some "T") "appendix"] ["1"] none "regtext"

set_option maxRecDepth 100000 in
/-- C2 (witness). -/
theorem claim_C2_treeify_round_trip_witness :
    wellGrouped exC2 = true ∧ treeify (flatten exC2) = .ok [exC2] :=
  ⟨by decide, claim_C2_treeify_round_trip exC2 (by decide)⟩
